import Mathlib

/-!
Verification development for the zcf configuration subsystem
(`src/src/utils/output-style.ts`, second part: the zcf-config module).

The development has three layers:

* a value-level model of the canonical TOML config, the legacy flat
  config, and the migration / normalization / read / write operations;
* a small filesystem model for the legacy-location migration
  (`migrateZcfConfigIfNeeded`) and the read fallback chain;
* a character-level model of the top-level TOML field patcher
  (`updateTopLevelTomlFields` and its helpers), which performs textual
  surgery on the document.

JavaScript peculiarities that matter (empty-string falsiness of `||`,
`??` nullish coalescing, regex semantics of the field patterns) are
modelled explicitly.
-/

namespace Zcf

/-! ## JavaScript truthiness helpers

In the source, `a || b` on strings falls through on `undefined` and on
the empty string; `a ?? b` falls through only on `undefined`/`null`.
We model possibly-absent strings as `Option String`. -/

/-- Truthy projection of an optional string: `some ""` is falsy. -/
def jsStr : Option String → Option String
  | some "" => none
  | x => x

/-- JavaScript `a || d` where `d` is a (truthy) string result. -/
def jsOrS (a : Option String) (d : String) : String :=
  (jsStr a).getD d

/-- JavaScript `a || b` where both sides are possibly absent strings;
the right side is returned as-is (possibly falsy). -/
def jsOrOpt (a b : Option String) : Option String :=
  (jsStr a).orElse (fun _ => b)

/-! ## Constants

Modelled from the spec: the "supported language" validation set, the
"supported tool identifiers" validation set and the "default tool"
constant are injected from `../constants`, which is not part of the
sources under verification (§6 of the spec).  The spec names `zh-CN`
and `en` as languages and `claude-code` / `codex` as tool identifiers
(the latter two also appear literally in the source). -/

def SUPPORTED_LANGS : List String := ["zh-CN", "en"]

def CODE_TOOL_TYPES : List String := ["claude-code", "codex"]

def DEFAULT_CODE_TOOL_TYPE : String := "claude-code"

/-- Source `isSupportedLang` (membership in `SUPPORTED_LANGS`). -/
def isSupportedLang (value : String) : Bool :=
  SUPPORTED_LANGS.contains value

/-- Modelled from the spec: `isCodeToolType` from `../constants`
(membership in the supported tool identifier set). -/
def isCodeToolType (value : String) : Bool :=
  CODE_TOOL_TYPES.contains value

/-- Source `sanitizePreferredLang`, applied to a possibly-absent value
(the TS function takes `any`; `undefined` is not a supported lang). -/
def sanitizePreferredLang (lang : Option String) : String :=
  match lang with
  | some l => if isSupportedLang l then l else "en"
  | none => "en"

/-- Source `sanitizeCodeToolType`, applied to a possibly-absent value. -/
def sanitizeCodeToolType (codeTool : Option String) : String :=
  match codeTool with
  | some t => if isCodeToolType t then t else DEFAULT_CODE_TOOL_TYPE
  | none => DEFAULT_CODE_TOOL_TYPE

/-! ## Data model

`ZcfTomlConfig` is the canonical nested shape (`types/toml-config`),
`ZcfConfig` the legacy flat shape declared in the source, and
`JsonZcfConfig` the untyped legacy JSON record (`any`) consumed by
`migrateFromJsonConfig`, modelled as an all-optional record of the
fields the source reads off it.  Profile tables are modelled as
association lists of profile name to profile data. -/

/-- Profile table: profile name to an opaque profile payload. -/
abbrev Profiles := List (String × String)

structure TomlGeneral where
  preferredLang : String
  templateLang : Option String
  aiOutputLang : Option String
  currentTool : String
  deriving Repr, DecidableEq

structure TomlClaudeCode where
  enabled : Bool
  outputStyles : List String
  defaultOutputStyle : Option String
  installType : String
  currentProfile : Option String
  profiles : Option Profiles
  version : Option String
  deriving Repr, DecidableEq

structure TomlCodex where
  enabled : Bool
  systemPromptStyle : String
  deriving Repr, DecidableEq

structure ZcfTomlConfig where
  version : String
  lastUpdated : String
  general : TomlGeneral
  claudeCode : TomlClaudeCode
  codex : TomlCodex
  deriving Repr, DecidableEq

/-- Legacy flat config (interface `ZcfConfig` in the source). -/
structure ZcfConfig where
  version : String
  preferredLang : String
  templateLang : Option String
  aiOutputLang : Option String
  outputStyles : Option (List String)
  defaultOutputStyle : Option String
  codeToolType : String
  lastUpdated : String
  deriving Repr, DecidableEq

/-- An untyped legacy JSON record as read from disk; every field the
source dereferences is optional.  `claudeCodeInstallationType` stands
for `jsonConfig.claudeCodeInstallation?.type` and
`claudeCodeProfiles` for `jsonConfig.claudeCode?.profiles`. -/
structure JsonZcfConfig where
  version : Option String := none
  preferredLang : Option String := none
  templateLang : Option String := none
  aiOutputLang : Option String := none
  outputStyles : Option (List String) := none
  defaultOutputStyle : Option String := none
  codeToolType : Option String := none
  lastUpdated : Option String := none
  claudeCodeInstallationType : Option String := none
  currentProfileId : Option String := none
  claudeCodeProfiles : Option Profiles := none
  systemPromptStyle : Option String := none
  deriving Repr, DecidableEq

/-- Partial update record (`Partial<ZcfConfig>`) for `updateZcfConfig`. -/
structure PartialZcfConfig where
  version : Option String := none
  preferredLang : Option String := none
  templateLang : Option String := none
  aiOutputLang : Option String := none
  outputStyles : Option (List String) := none
  defaultOutputStyle : Option String := none
  codeToolType : Option String := none
  lastUpdated : Option String := none
  deriving Repr, DecidableEq

/-! ## Default construction and migration (source functions) -/

/-- Source `createDefaultTomlConfig`.  `now` stands for
`new Date().toISOString()`. -/
def createDefaultTomlConfig (now : String) (preferredLang : String := "en")
    (claudeCodeInstallType : String := "global") : ZcfTomlConfig :=
  { version := "1.0.0"
    lastUpdated := now
    general :=
      { preferredLang := preferredLang
        templateLang := some preferredLang
        aiOutputLang := if preferredLang = "zh-CN" then some "zh-CN" else none
        currentTool := DEFAULT_CODE_TOOL_TYPE }
    claudeCode :=
      { enabled := true
        outputStyles := ["engineer-professional"]
        defaultOutputStyle := some "engineer-professional"
        installType := claudeCodeInstallType
        currentProfile := some ""
        profiles := some []
        version := none }
    codex :=
      { enabled := false
        systemPromptStyle := "engineer-professional" } }

/-- Source `migrateFromJsonConfig`: legacy JSON record to TOML shape. -/
def migrateFromJsonConfig (now : String) (jsonConfig : JsonZcfConfig) : ZcfTomlConfig :=
  let claudeCodeInstallType := jsOrS jsonConfig.claudeCodeInstallationType "global"
  let defaultConfig := createDefaultTomlConfig now "en" claudeCodeInstallType
  { version := jsOrS jsonConfig.version defaultConfig.version
    lastUpdated := jsOrS jsonConfig.lastUpdated now
    general :=
      { preferredLang := jsOrS jsonConfig.preferredLang defaultConfig.general.preferredLang
        templateLang := some (jsOrS jsonConfig.templateLang
          (jsOrS jsonConfig.preferredLang defaultConfig.general.preferredLang))
        aiOutputLang := jsOrOpt jsonConfig.aiOutputLang defaultConfig.general.aiOutputLang
        currentTool := jsOrS jsonConfig.codeToolType defaultConfig.general.currentTool }
    claudeCode :=
      { enabled := jsonConfig.codeToolType = some "claude-code"
        outputStyles := jsonConfig.outputStyles.getD defaultConfig.claudeCode.outputStyles
        defaultOutputStyle :=
          jsonConfig.defaultOutputStyle.orElse (fun _ => defaultConfig.claudeCode.defaultOutputStyle)
        installType := claudeCodeInstallType
        currentProfile := jsOrOpt jsonConfig.currentProfileId defaultConfig.claudeCode.currentProfile
        profiles := some (jsonConfig.claudeCodeProfiles.getD [])
        version := none }
    codex :=
      { enabled := jsonConfig.codeToolType = some "codex"
        systemPromptStyle := jsOrS jsonConfig.systemPromptStyle
          defaultConfig.codex.systemPromptStyle } }

/-- View of a legacy `ZcfConfig` as the untyped JSON record it is when
passed to `migrateFromJsonConfig` (fields the flat interface lacks are
`undefined`). -/
def legacyAsJson (c : ZcfConfig) : JsonZcfConfig :=
  { version := some c.version
    preferredLang := some c.preferredLang
    templateLang := c.templateLang
    aiOutputLang := c.aiOutputLang
    outputStyles := c.outputStyles
    defaultOutputStyle := c.defaultOutputStyle
    codeToolType := some c.codeToolType
    lastUpdated := some c.lastUpdated }

/-- Source `convertLegacyToTomlConfig` (delegates to
`migrateFromJsonConfig`). -/
def convertLegacyToTomlConfig (now : String) (legacyConfig : ZcfConfig) : ZcfTomlConfig :=
  migrateFromJsonConfig now (legacyAsJson legacyConfig)

/-- Source `convertTomlToLegacyConfig`. -/
def convertTomlToLegacyConfig (tomlConfig : ZcfTomlConfig) : ZcfConfig :=
  { version := tomlConfig.version
    preferredLang := tomlConfig.general.preferredLang
    templateLang := tomlConfig.general.templateLang
    aiOutputLang := tomlConfig.general.aiOutputLang
    outputStyles := some tomlConfig.claudeCode.outputStyles
    defaultOutputStyle := tomlConfig.claudeCode.defaultOutputStyle
    codeToolType := tomlConfig.general.currentTool
    lastUpdated := tomlConfig.lastUpdated }

/-- Source `normalizeZcfConfig`.  Implements the `typeof`-string checks
and truthiness tests of the source on the optional fields. -/
def normalizeZcfConfig (now : String) (config : Option JsonZcfConfig) : Option ZcfConfig :=
  match config with
  | none => none
  | some c =>
    some
      { version := c.version.getD "1.0.0"
        preferredLang := sanitizePreferredLang c.preferredLang
        templateLang :=
          match jsStr c.templateLang with
          | some t => some (sanitizePreferredLang (some t))
          | none => none
        aiOutputLang := c.aiOutputLang
        outputStyles := c.outputStyles
        defaultOutputStyle := c.defaultOutputStyle
        codeToolType := sanitizeCodeToolType c.codeToolType
        lastUpdated := c.lastUpdated.getD now }

/-! ## Value-level model of the TOML write path

`batchEditToml`, `parseToml` and `stringifyToml` live in
`./toml-edit`, which is not among the sources.  Modelled from the
spec (§4.1, §4.2): the incremental editor overwrites exactly the keys
of the edit set, leaves every other key of the document untouched, and
an edit for an optional key is only emitted when the corresponding
field of the new config is defined (source `writeTomlConfig` guards
each optional edit with an `undefined` check).  We model the persisted
document at the parsed-value level. -/

/-- The edit set built by source `writeTomlConfig` applied to an
existing document: required section fields are overwritten, optional
section fields only when defined in `c`; top-level `version` and
`lastUpdated` are handled afterwards by the top-level patcher. -/
def applyStructuredEdits (existing c : ZcfTomlConfig) : ZcfTomlConfig :=
  { version := existing.version
    lastUpdated := existing.lastUpdated
    general :=
      { preferredLang := c.general.preferredLang
        currentTool := c.general.currentTool
        templateLang := c.general.templateLang.orElse (fun _ => existing.general.templateLang)
        aiOutputLang := c.general.aiOutputLang.orElse (fun _ => existing.general.aiOutputLang) }
    claudeCode :=
      { enabled := c.claudeCode.enabled
        outputStyles := c.claudeCode.outputStyles
        installType := c.claudeCode.installType
        defaultOutputStyle :=
          c.claudeCode.defaultOutputStyle.orElse (fun _ => existing.claudeCode.defaultOutputStyle)
        currentProfile :=
          c.claudeCode.currentProfile.orElse (fun _ => existing.claudeCode.currentProfile)
        profiles := c.claudeCode.profiles.orElse (fun _ => existing.claudeCode.profiles)
        version := c.claudeCode.version.orElse (fun _ => existing.claudeCode.version) }
    codex :=
      { enabled := c.codex.enabled
        systemPromptStyle := c.codex.systemPromptStyle } }

/-- Source `writeTomlConfig` at the value level: incremental edits on
an existing document (then the top-level patcher sets `version` and
`lastUpdated`), or a full serialization when no document exists. -/
def writeTomlConfigVal (existing : Option ZcfTomlConfig) (c : ZcfTomlConfig) : ZcfTomlConfig :=
  match existing with
  | some e =>
    { applyStructuredEdits e c with version := c.version, lastUpdated := c.lastUpdated }
  | none => c

/-- Source `writeZcfConfig` at the value level: sanitizes the tool
selector, converts the legacy input to the TOML shape, carries forward
the out-of-band fields of the existing document (prompt style when the
input has none, profile table, active profile, tool version marker),
then persists. -/
def writeZcfConfigVal (existing : Option ZcfTomlConfig) (now : String)
    (config : ZcfConfig) : ZcfTomlConfig :=
  let sanitizedConfig := { config with codeToolType := sanitizeCodeToolType (some config.codeToolType) }
  let tomlConfig := convertLegacyToTomlConfig now sanitizedConfig
  -- `(sanitizedConfig as any).systemPromptStyle` is `undefined` for the
  -- flat interface, so only the existing document's style can win.
  let nextSystemPromptStyle := jsStr (existing.map (fun e => e.codex.systemPromptStyle))
  let tomlConfig :=
    match nextSystemPromptStyle with
    | some s => { tomlConfig with codex := { tomlConfig.codex with systemPromptStyle := s } }
    | none => tomlConfig
  let tomlConfig :=
    match existing with
    | some e =>
      { tomlConfig with
        claudeCode :=
          { tomlConfig.claudeCode with
            profiles :=
              if e.claudeCode.profiles.isSome then e.claudeCode.profiles
              else tomlConfig.claudeCode.profiles
            currentProfile :=
              if e.claudeCode.currentProfile.isSome then e.claudeCode.currentProfile
              else tomlConfig.claudeCode.currentProfile
            version :=
              match jsStr e.claudeCode.version with
              | some v => some v
              | none => tomlConfig.claudeCode.version } }
    | none => tomlConfig
  writeTomlConfigVal existing tomlConfig

/-- Source `readZcfConfig` restricted to the structured-read path at
the value level: an existing document that parses is converted to the
legacy shape (the fallback chain is modelled separately on the
filesystem model). -/
def readZcfConfigVal (existing : Option ZcfTomlConfig) : Option ZcfConfig :=
  existing.map convertTomlToLegacyConfig

/-- Source `updateZcfConfig` at the value level, for a state in which
the structured document `existing` is present and parses: read, merge
field by field with the `||` / `undefined`-check semantics of the
source, bump the timestamp, write. -/
def updateZcfConfigVal (existing : Option ZcfTomlConfig) (now : String)
    (updates : PartialZcfConfig) : ZcfTomlConfig :=
  let existingConfig := readZcfConfigVal existing
  let newConfig : ZcfConfig :=
    { version := jsOrS updates.version (jsOrS (existingConfig.map (fun c => c.version)) "1.0.0")
      preferredLang := jsOrS updates.preferredLang
        (jsOrS (existingConfig.map (fun c => c.preferredLang)) "en")
      templateLang :=
        match updates.templateLang with
        | some t => some t
        | none => existingConfig.bind (fun c => c.templateLang)
      aiOutputLang := jsOrOpt updates.aiOutputLang (existingConfig.bind (fun c => c.aiOutputLang))
      outputStyles :=
        match updates.outputStyles with
        | some s => some s
        | none => existingConfig.bind (fun c => c.outputStyles)
      defaultOutputStyle :=
        match updates.defaultOutputStyle with
        | some s => some s
        | none => existingConfig.bind (fun c => c.defaultOutputStyle)
      codeToolType := jsOrS updates.codeToolType
        (jsOrS (existingConfig.map (fun c => c.codeToolType)) DEFAULT_CODE_TOOL_TYPE)
      lastUpdated := now }
  writeZcfConfigVal existing now newConfig

/-! ## Filesystem model

Used for `migrateZcfConfigIfNeeded` and the read fallback chain of
`readZcfConfig`.  File contents are modelled at the parsed level
(`FileData`): a structured document carries a parsed `ZcfTomlConfig`, a
flat JSON file carries a `JsonZcfConfig`, and `corrupt` stands for text
that neither parser accepts.  Modelled from the spec: the Format Codec
(`parseToml` in `./toml-edit`, not among the sources) either yields the
canonical table or fails, and `readJsonConfig` (in `./json-config`, not
among the sources) yields the flat record or `null`.

Environment faults (permission errors, cross-device renames) are
injected through the `*Fault` fields; `ErrCode.exdev` is the `EXDEV`
error code that `migrateZcfConfigIfNeeded` specifically recovers
from. -/

abbrev Path := String

inductive FileData where
  | toml (c : ZcfTomlConfig)
  | json (j : JsonZcfConfig)
  | corrupt
  deriving Repr, DecidableEq

inductive ErrCode where
  | exdev
  | other
  deriving Repr, DecidableEq

structure FS where
  files : List (Path × FileData)
  dirs : List Path
  renameFault : Path → Path → Option ErrCode
  copyFault : Path → Path → Bool
  rmFault : Path → Bool
  mkdirFault : Path → Bool

/-- Look up a file's content. -/
def FS.lookup (fs : FS) (p : Path) : Option FileData :=
  (fs.files.find? (fun e => e.1 = p)).map (fun e => e.2)

/-- Node `existsSync` on a file path. -/
def FS.existsFile (fs : FS) (p : Path) : Bool :=
  (fs.lookup p).isSome

/-- Node `existsSync` on a directory path. -/
def FS.existsDir (fs : FS) (p : Path) : Bool :=
  fs.dirs.contains p

/-- Set (create or overwrite) a file's content. -/
def FS.setFile (fs : FS) (p : Path) (d : FileData) : FS :=
  { fs with files := (p, d) :: fs.files.filter (fun e => e.1 ≠ p) }

/-- Remove a file if present. -/
def FS.removeFile (fs : FS) (p : Path) : FS :=
  { fs with files := fs.files.filter (fun e => e.1 ≠ p) }

/-- Node `renameSync`: fails with the injected code if a fault is set,
otherwise moves the source content to the target. -/
def FS.rename (fs : FS) (src dst : Path) : Except ErrCode FS :=
  match fs.renameFault src dst with
  | some e => .error e
  | none =>
    match fs.lookup src with
    | none => .error .other
    | some d => .ok ((fs.removeFile src).setFile dst d)

/-- Node `copyFileSync`. -/
def FS.copyFile (fs : FS) (src dst : Path) : Except ErrCode FS :=
  if fs.copyFault src dst then .error .other
  else
    match fs.lookup src with
    | none => .error .other
    | some d => .ok (fs.setFile dst d)

/-- Node `rmSync` with `force: true`: a missing file is not an error,
but an injected fault (for instance a permission error) still is. -/
def FS.rmForce (fs : FS) (p : Path) : Except ErrCode FS :=
  if fs.rmFault p then .error .other else .ok (fs.removeFile p)

/-- Node `mkdirSync` with `recursive: true`. -/
def FS.mkdir (fs : FS) (p : Path) : Except ErrCode FS :=
  if fs.mkdirFault p then .error .other
  else .ok { fs with dirs := p :: fs.dirs }

/-- A filesystem state none of whose operations fault. -/
def FaultFree (fs : FS) : Prop :=
  (∀ p q, fs.renameFault p q = none) ∧ (∀ p q, fs.copyFault p q = false) ∧
    (∀ p, fs.rmFault p = false) ∧ (∀ p, fs.mkdirFault p = false)

/-! ### Path constants

Modelled from the spec (§6): a fixed canonical config-file path inside
a fixed per-user config directory, and a fixed ordered list of legacy
candidate paths, all injected from `../constants` (not among the
sources). -/

def ZCF_CONFIG_DIR : Path := "HOME/.ufomiao/zcf"

def ZCF_CONFIG_FILE : Path := "HOME/.ufomiao/zcf/config.toml"

def LEGACY_ZCF_CONFIG_FILES : List Path :=
  ["HOME/.zcf.json", "HOME/.claude/.zcf-config.json"]

/-- Result record of source `migrateZcfConfigIfNeeded`
(`ZcfConfigMigrationResult`). -/
structure ZcfConfigMigrationResult where
  migrated : Bool
  source : Option Path
  target : Path
  removed : List Path
  deriving Repr, DecidableEq

/-- Best-effort removal loop: each `rmSync` is wrapped in its own
`try`/`catch`, successes are appended to `removed`. -/
def rmBestEffort (fs : FS) (paths : List Path) (removed : List Path) :
    FS × List Path :=
  match paths with
  | [] => (fs, removed)
  | p :: rest =>
    match fs.rmForce p with
    | .ok fs' => rmBestEffort fs' rest (removed ++ [p])
    | .error _ => rmBestEffort fs rest removed

/-- The move step of the migration: `renameSync` guarded by a `catch`
that re-throws any error whose code is not `EXDEV` and otherwise falls
back to `copyFileSync` followed by an unguarded `rmSync`. -/
def moveWithExdevFallback (fs : FS) (source target : Path) : Except ErrCode FS :=
  match fs.rename source target with
  | .ok fs' => .ok fs'
  | .error e =>
    if e ≠ .exdev then .error e
    else
      match fs.copyFile source target with
      | .error e2 => .error e2
      | .ok fs' => fs'.rmForce source

/-- Source `migrateZcfConfigIfNeeded` on the filesystem model.  The
`Except` layer carries exceptions that escape the function: a
non-`EXDEV` rename failure, a failure of the cross-device
`copyFileSync`/`rmSync` fallback, or a `mkdirSync` failure; the
per-file cleanup removals are individually guarded and never escape.
When no legacy candidate exists, neither branch condition of the
source holds and the call is a no-op. -/
def migrateZcfConfigIfNeededF (fs : FS) :
    Except ErrCode (ZcfConfigMigrationResult × FS) :=
  let target := ZCF_CONFIG_FILE
  let targetExists := fs.existsFile target
  match LEGACY_ZCF_CONFIG_FILES.filter (fun p => fs.existsFile p) with
  | [] => .ok ({ migrated := false, source := none, target := target, removed := [] }, fs)
  | source :: leftovers =>
    if targetExists then
      let cleaned := rmBestEffort fs (source :: leftovers) []
      .ok ({ migrated := false, source := none, target := target, removed := cleaned.2 },
        cleaned.1)
    else
      match (if fs.existsDir ZCF_CONFIG_DIR then .ok fs else fs.mkdir ZCF_CONFIG_DIR :
          Except ErrCode FS) with
      | .error e => .error e
      | .ok fs1 =>
        match moveWithExdevFallback fs1 source target with
        | .error e => .error e
        | .ok fs2 =>
          let cleaned := rmBestEffort fs2 leftovers []
          .ok
            ({ migrated := true, source := some source, target := target,
               removed := cleaned.2 },
             cleaned.1)

/-- Source `readTomlConfig` on the filesystem model: `null` when the
file is absent or fails to parse. -/
def readTomlConfigF (fs : FS) (configPath : Path) : Option ZcfTomlConfig :=
  match fs.lookup configPath with
  | some (.toml c) => some c
  | _ => none

/-- Modelled from the spec: `readJsonConfig` returns the parsed flat
record or `null` when the file is absent or not valid JSON. -/
def readJsonConfigF (fs : FS) (configPath : Path) : Option JsonZcfConfig :=
  match fs.lookup configPath with
  | some (.json j) => some j
  | _ => none

/-- The legacy fallback loop of `readZcfConfig`: each legacy path is
checked for existence, read as JSON and normalized; the first
successfully normalized record wins. -/
def readLegacyChain (now : String) (fs : FS) : List Path → Option ZcfConfig
  | [] => none
  | p :: rest =>
    if fs.existsFile p then
      match normalizeZcfConfig now (readJsonConfigF fs p) with
      | some c => some c
      | none => readLegacyChain now fs rest
    else readLegacyChain now fs rest

/-- The read fallback chain of `readZcfConfig` after migration has
run: structured read of the canonical document, then flat-JSON read of
the canonical path with its extension swapped, then the legacy
paths in priority order. -/
def readAfterMigration (now : String) (fs : FS) : Option ZcfConfig :=
  match readTomlConfigF fs ZCF_CONFIG_FILE with
  | some tomlConfig => some (convertTomlToLegacyConfig tomlConfig)
  | none =>
    match normalizeZcfConfig now
        (readJsonConfigF fs (ZCF_CONFIG_FILE.replace ".toml" ".json")) with
    | some normalized => some normalized
    | none => readLegacyChain now fs LEGACY_ZCF_CONFIG_FILES

/-- Source `readZcfConfig` on the filesystem model: runs the
legacy-location migration (whose escaping exceptions propagate, since
the source does not guard the call), then the fallback chain. -/
def readZcfConfigF (now : String) (fs : FS) :
    Except ErrCode (Option ZcfConfig × FS) := do
  let (_, fs') ← migrateZcfConfigIfNeededF fs
  pure (readAfterMigration now fs', fs')

/-! ## Character-level model of the top-level field patcher

`updateTopLevelTomlFields`, `insertAtTopLevelStart` and
`insertAfterVersionField` operate directly on the document text.  Text
is modelled as `List Char`.  The field patterns
`/^version\s*=\s*["'][^"']*["'][ \t]*(?:#.*)?$/m` (and the analogous
`lastUpdated` pattern) are multiline-anchored; because each quantified
character class is disjoint from the token that follows it, the JS
backtracking search is deterministic, and we implement it by greedy
scanning.  Multiline `^` holds at the start of the input and after any
line terminator; multiline `$` holds at the end and before any line
terminator; `.` matches anything but a line terminator. -/

abbrev Text := List Char

/-- JS regex line terminators. -/
def isLineTerm (c : Char) : Bool :=
  c = '\n' ∨ c = '\r' ∨ c = '\u2028' ∨ c = '\u2029'

/-- JS regex `\s` and `String.prototype.trim` whitespace. -/
def isJsWs (c : Char) : Bool :=
  c = ' ' ∨ c = '\t' ∨ c = '\n' ∨ c = '\r' ∨ c = '\x0b' ∨ c = '\x0c' ∨
    c = '\u00A0' ∨ c = '\u1680' ∨ ('\u2000' ≤ c ∧ c ≤ '\u200A') ∨
    c = '\u2028' ∨ c = '\u2029' ∨ c = '\u202F' ∨ c = '\u205F' ∨
    c = '\u3000' ∨ c = '\uFEFF'

/-- The character class `[ \t]`. -/
def isSpaceTab (c : Char) : Bool :=
  c = ' ' ∨ c = '\t'

/-- The character class `["']`. -/
def isQuote (c : Char) : Bool :=
  c = '"' ∨ c = '\''

/-- Strip a literal key from the head of the text. -/
def stripKey : Text → Text → Option Text
  | [], cs => some cs
  | _ :: _, [] => none
  | k :: ks, c :: cs => if c = k then stripKey ks cs else none

/-- Match `key\s*=\s*["'][^"']*["'][ \t]*(?:#.*)?$` at the head of
`cs` (multiline `$`).  On success returns the matched segment and the
remainder, with `cs = matched ++ rest`. -/
def matchFieldAt (key : Text) (cs : Text) : Option (Text × Text) :=
  match stripKey key cs with
  | none => none
  | some r1 =>
    let ws1 := r1.takeWhile isJsWs
    match r1.dropWhile isJsWs with
    | [] => none
    | c2 :: r3 =>
      if c2 = '=' then
        let ws2 := r3.takeWhile isJsWs
        match r3.dropWhile isJsWs with
        | [] => none
        | q1 :: r5 =>
          if isQuote q1 then
            let val := r5.takeWhile (fun c => !isQuote c)
            match r5.dropWhile (fun c => !isQuote c) with
            | [] => none
            | q2 :: r7 =>
              -- `q2` is necessarily a quote: `dropWhile` stopped on it
              let sp := r7.takeWhile isSpaceTab
              let stem := key ++ ws1 ++ c2 :: ws2 ++ q1 :: val ++ q2 :: sp
              match r7.dropWhile isSpaceTab with
              | [] => some (stem, [])
              | c :: r8 =>
                if c = '#' then
                  let cmt := r8.takeWhile (fun c => !isLineTerm c)
                  some (stem ++ c :: cmt, r8.dropWhile (fun c => !isLineTerm c))
                else if isLineTerm c then some (stem, c :: r8)
                else none
          else none
      else none

/-- Leftmost multiline-anchored occurrence of the field pattern.
`lineStart` records whether the current position begins a line.  On
success returns `(pre, matched, rest)` with the scanned text equal to
`pre ++ matched ++ rest` and the match starting at a line start. -/
def findFieldAux (key : Text) : Text → Bool → Option (Text × Text × Text)
  | [], lineStart =>
    if lineStart then (matchFieldAt key []).map (fun m => (([] : Text), m.1, m.2)) else none
  | c :: cs, lineStart =>
    if lineStart then
      match matchFieldAt key (c :: cs) with
      | some (m, r) => some ([], m, r)
      | none => (findFieldAux key cs (isLineTerm c)).map (fun x => (c :: x.1, x.2.1, x.2.2))
    else
      (findFieldAux key cs (isLineTerm c)).map (fun x => (c :: x.1, x.2.1, x.2.2))

/-- `text.match(regex)` for the field pattern of `key`, as the leftmost
match decomposition. -/
def findField (key cs : Text) : Option (Text × Text × Text) :=
  findFieldAux key cs true

/-- `text.replace(regex, repl)` for the field pattern: splice the
replacement over the first match, or return the text unchanged. -/
def replaceFirstField (key repl cs : Text) : Text :=
  match findField key cs with
  | some (pre, _, post) => pre ++ repl ++ post
  | none => cs

/-- `content.match(/^\[/m)` and the two slices around it: split the
document into the top-level span (before the first line beginning with
`[`) and the rest. -/
def splitAtFirstSection : Text → Bool → Text × Text
  | [], _ => ([], [])
  | c :: cs, lineStart =>
    if lineStart ∧ c = '[' then ([], c :: cs)
    else
      let (a, b) := splitAtFirstSection cs (isLineTerm c)
      (c :: a, b)

/-- JS `split('\n')` (the separator is exactly `'\n'`). -/
def splitNl : Text → List Text
  | [] => [[]]
  | c :: cs =>
    if c = '\n' then [] :: splitNl cs
    else
      match splitNl cs with
      | [] => [[c]]
      | l :: ls => (c :: l) :: ls

/-- JS `join('\n')`. -/
def joinNl : List Text → Text
  | [] => []
  | [l] => l
  | l :: ls => l ++ '\n' :: joinNl ls

/-- JS `String.prototype.trim`. -/
def jsTrim (l : Text) : Text :=
  ((l.dropWhile isJsWs).reverse.dropWhile isJsWs).reverse

/-- One line of the insertion loop of `insertAtTopLevelStart`: a line
that is blank or a comment after trimming. -/
def blankOrComment (l : Text) : Bool :=
  jsTrim l = [] ∨ (jsTrim l).head? = some '#'

/-- The loop of `insertAtTopLevelStart` computing `insertLineIndex`:
skip the leading run of blank and comment lines. -/
def insertLineIdx : List Text → Nat
  | [] => 0
  | l :: rest => if blankOrComment l then insertLineIdx rest + 1 else 0

/-- JS `content.replace(/\n$/, '')`. -/
def stripTrailingNl (cs : Text) : Text :=
  if cs.getLast? = some '\n' then cs.dropLast else cs

/-- Source `insertAtTopLevelStart`. -/
def insertAtTopLevelStart (topLevel content : Text) : Text :=
  let lines := splitNl topLevel
  let idx := insertLineIdx lines
  joinNl (lines.take idx ++ [stripTrailingNl content] ++ lines.drop idx)

/-- Key of the version field pattern (the characters of `version`). -/
def versionKey : Text := ['v', 'e', 'r', 's', 'i', 'o', 'n']

/-- Key of the lastUpdated field pattern (the characters of
`lastUpdated`). -/
def lastUpdatedKey : Text := ['l', 'a', 's', 't', 'U', 'p', 'd', 'a', 't', 'e', 'd']

/-- Source `insertAfterVersionField`: insert on a new line right after
the end of the first version-field match, falling back to
`insertAtTopLevelStart` when there is none. -/
def insertAfterVersionField (topLevel content : Text) : Text :=
  match findField versionKey topLevel with
  | some (pre, m, post) => pre ++ m ++ '\n' :: (stripTrailingNl content ++ post)
  | none => insertAtTopLevelStart topLevel content

/-- The text `key = "value"` spliced in by the patcher. -/
def fieldAssignment (key value : Text) : Text :=
  key ++ ' ' :: '=' :: ' ' :: '"' :: (value ++ ['"'])

/-- The two field update/insert phases of `updateTopLevelTomlFields`
applied to the top-level span: version first, then lastUpdated. -/
def patchTopLevelSpan (topLevel version lastUpdated : Text) : Text :=
  let afterVersion :=
    match findField versionKey topLevel with
    | some _ => replaceFirstField versionKey (fieldAssignment versionKey version) topLevel
    | none => insertAtTopLevelStart topLevel (fieldAssignment versionKey version)
  match findField lastUpdatedKey afterVersion with
  | some _ =>
    replaceFirstField lastUpdatedKey (fieldAssignment lastUpdatedKey lastUpdated) afterVersion
  | none => insertAfterVersionField afterVersion (fieldAssignment lastUpdatedKey lastUpdated)

/-- JS `topLevel.endsWith('\n')`. -/
def endsWithNl (cs : Text) : Bool :=
  cs.getLast? = some '\n'

/-- JS `topLevel.endsWith('\n\n')`. -/
def endsWithNlNl (cs : Text) : Bool :=
  match cs.reverse with
  | '\n' :: '\n' :: _ => true
  | _ => false

/-- The final step of `updateTopLevelTomlFields`: append a newline to
the patched span when the rest is non-empty and the span does not
already end with one. -/
def ensureTrailingSep (topLevel rest : Text) : Text :=
  if rest.length > 0 && !endsWithNlNl topLevel && !endsWithNl topLevel then
    topLevel ++ ['\n']
  else topLevel

/-- Source `updateTopLevelTomlFields`. -/
def updateTopLevelTomlFields (content version lastUpdated : Text) : Text :=
  let split := splitAtFirstSection content true
  ensureTrailingSep (patchTopLevelSpan split.1 version lastUpdated) split.2 ++ split.2

/-! ## Predicates and helpers for the patcher analysis -/

/-- A line free of any regex line terminator. -/
def CleanLine (l : Text) : Prop := ∀ c ∈ l, isLineTerm c = false

/-- A document whose only line breaks are plain `'\n'`. -/
def OnlyLfBreaks (cs : Text) : Prop := ∀ c ∈ cs, isLineTerm c = true → c = '\n'

/-- A field value free of quotes and line terminators. -/
def PlainValue (v : Text) : Prop := ∀ c ∈ v, isQuote c = false ∧ isLineTerm c = false

/-- The text formed by a run of full lines, each closed by a newline. -/
def linesText : List Text → Text
  | [] => []
  | l :: ls => l ++ '\n' :: linesText ls

/-! ## Basic lemmas about the truthiness helpers and sanitizers -/

@[simp] theorem jsStr_none : jsStr none = none := rfl

@[simp] theorem jsStr_some_empty : jsStr (some "") = none := rfl

theorem jsStr_some_of_ne {s : String} (h : s ≠ "") : jsStr (some s) = some s := by
  unfold jsStr
  split
  · rename_i heq
    cases heq
    exact absurd rfl h
  · rfl

@[simp] theorem jsOrS_none (d : String) : jsOrS none d = d := rfl

theorem jsOrS_some_of_ne {s : String} (d : String) (h : s ≠ "") : jsOrS (some s) d = s := by
  unfold jsOrS
  rw [jsStr_some_of_ne h]
  rfl

@[simp] theorem jsOrOpt_none (b : Option String) : jsOrOpt none b = b := rfl

theorem jsOrOpt_some_of_ne {s : String} (b : Option String) (h : s ≠ "") :
    jsOrOpt (some s) b = some s := by
  unfold jsOrOpt
  rw [jsStr_some_of_ne h]
  rfl

theorem jsStr_some_eq_ite (s : String) : jsStr (some s) = if s = "" then none else some s := by
  by_cases h : s = ""
  · subst h
    simp
  · rw [jsStr_some_of_ne h, if_neg h]

theorem isCodeToolType_cases {t : String} (h : isCodeToolType t = true) :
    t = "claude-code" ∨ t = "codex" := by
  simp only [isCodeToolType, CODE_TOOL_TYPES, List.contains_cons, List.contains_nil,
    Bool.or_eq_true, beq_iff_eq] at h
  rcases h with h | h | h
  · exact Or.inl h
  · exact Or.inr h
  · exact absurd h (by simp)

theorem isCodeToolType_ne_empty {t : String} (h : isCodeToolType t = true) : t ≠ "" := by
  rcases isCodeToolType_cases h with h | h <;> simp [h]

theorem sanitizeCodeToolType_of_valid {t : String} (h : isCodeToolType t = true) :
    sanitizeCodeToolType (some t) = t := by
  simp [sanitizeCodeToolType, h]

theorem isCodeToolType_sanitize (o : Option String) :
    isCodeToolType (sanitizeCodeToolType o) = true := by
  cases o with
  | none => decide
  | some t =>
    by_cases h : isCodeToolType t = true
    · simp [sanitizeCodeToolType, h]
    · simp only [sanitizeCodeToolType, Bool.not_eq_true] at h ⊢
      simp [h]
      decide

theorem isSupportedLang_sanitize (o : Option String) :
    isSupportedLang (sanitizePreferredLang o) = true := by
  cases o with
  | none => decide
  | some l =>
    by_cases h : isSupportedLang l = true
    · simp [sanitizePreferredLang, h]
    · simp only [sanitizePreferredLang, Bool.not_eq_true] at h ⊢
      simp [h]
      decide

/-! ## C5: concrete legacy migration scenario -/

/-- C5: migrating the legacy flat record
`{codeToolType: "claude-code", preferredLang: "zh-CN",
outputStyles: ["engineer-professional"]}` with `migrateFromJsonConfig`
yields `general.preferredLang = "zh-CN"`,
`general.currentTool = "claude-code"`, `claudeCode.enabled = true`,
`codex.enabled = false`, and
`claudeCode.outputStyles = ["engineer-professional"]`. -/
theorem c5_migrate_concrete_scenario (now : String) :
    (migrateFromJsonConfig now
        { codeToolType := some "claude-code", preferredLang := some "zh-CN",
          outputStyles := some ["engineer-professional"] }).general.preferredLang = "zh-CN" ∧
      (migrateFromJsonConfig now
          { codeToolType := some "claude-code", preferredLang := some "zh-CN",
            outputStyles := some ["engineer-professional"] }).general.currentTool = "claude-code" ∧
      (migrateFromJsonConfig now
          { codeToolType := some "claude-code", preferredLang := some "zh-CN",
            outputStyles := some ["engineer-professional"] }).claudeCode.enabled = true ∧
      (migrateFromJsonConfig now
          { codeToolType := some "claude-code", preferredLang := some "zh-CN",
            outputStyles := some ["engineer-professional"] }).codex.enabled = false ∧
      (migrateFromJsonConfig now
          { codeToolType := some "claude-code", preferredLang := some "zh-CN",
            outputStyles := some ["engineer-professional"] }).claudeCode.outputStyles =
        ["engineer-professional"] := by
  refine ⟨rfl, rfl, by simp [migrateFromJsonConfig], by simp [migrateFromJsonConfig], rfl⟩

/-! ## C10: invariants of `normalizeZcfConfig` -/

/-- C10: `normalizeZcfConfig` returns `none` exactly on `none`; on any
record it produces a full record whose `preferredLang` is a supported
language (falling back to `en` when the input value is unsupported or
absent), whose `codeToolType` is a valid tool identifier (falling back
to the default tool), and whose `version` and `lastUpdated` default to
`1.0.0` and the current time when absent. -/
theorem c10_normalize_invariants (now : String) (c : JsonZcfConfig) :
    normalizeZcfConfig now none = none ∧
      ∃ r, normalizeZcfConfig now (some c) = some r ∧
        isSupportedLang r.preferredLang = true ∧
        isCodeToolType r.codeToolType = true ∧
        (∀ l, c.preferredLang = some l → isSupportedLang l = false → r.preferredLang = "en") ∧
        (c.preferredLang = none → r.preferredLang = "en") ∧
        (∀ t, c.codeToolType = some t → isCodeToolType t = false →
          r.codeToolType = DEFAULT_CODE_TOOL_TYPE) ∧
        (c.version = none → r.version = "1.0.0") ∧
        (c.lastUpdated = none → r.lastUpdated = now) := by
  refine ⟨rfl, _, rfl, isSupportedLang_sanitize _, isCodeToolType_sanitize _, ?_, ?_, ?_, ?_, ?_⟩
  · intro l hl hbad
    simp [sanitizePreferredLang, hl, hbad]
  · intro h
    simp [sanitizePreferredLang, h]
  · intro t ht hbad
    simp [sanitizeCodeToolType, ht, hbad]
  · intro h
    simp [h]
  · intro h
    simp [h]

/-- Witness for C10 at a concrete record with an unsupported language,
an invalid tool identifier and absent version/timestamp. -/
theorem c10_normalize_invariants_witness :
    normalizeZcfConfig "T" none = none ∧
      ∃ r, normalizeZcfConfig "T"
          (some { preferredLang := some "xx", codeToolType := some "not-a-tool" }) = some r ∧
        r.preferredLang = "en" ∧ r.codeToolType = "claude-code" ∧
        r.version = "1.0.0" ∧ r.lastUpdated = "T" := by
  obtain ⟨h0, r, hr, _, _, hlang, _, htool, hver, hupd⟩ :=
    c10_normalize_invariants "T"
      { preferredLang := some "xx", codeToolType := some "not-a-tool" }
  exact ⟨h0, r, hr, hlang "xx" rfl (by decide), htool "not-a-tool" rfl (by decide),
    hver rfl, hupd rfl⟩

/-! ## C9: enum sanitization on the write path -/

/-- C9 (amended): the write operation coerces an invalid code-tool
selector to the default tool before persisting (the persisted
`general.currentTool` always equals the sanitized selector and is
always a valid tool identifier); the preferred language, however, is
not sanitized by the write path — see the counterexample. -/
theorem c9_write_sanitizes_code_tool (existing : Option ZcfTomlConfig) (now : String)
    (config : ZcfConfig) :
    (writeZcfConfigVal existing now config).general.currentTool =
        sanitizeCodeToolType (some config.codeToolType) ∧
      isCodeToolType ((writeZcfConfigVal existing now config).general.currentTool) = true := by
  have hvalid := isCodeToolType_sanitize (some config.codeToolType)
  have hne := isCodeToolType_ne_empty hvalid
  have hcur :
      (writeZcfConfigVal existing now config).general.currentTool =
        sanitizeCodeToolType (some config.codeToolType) := by
    cases existing with
    | none =>
      simp only [writeZcfConfigVal, writeTomlConfigVal, convertLegacyToTomlConfig,
        migrateFromJsonConfig, legacyAsJson, createDefaultTomlConfig]
      rw [jsOrS_some_of_ne _ hne]
      split <;> rfl
    | some e =>
      simp only [writeZcfConfigVal, writeTomlConfigVal, applyStructuredEdits,
        convertLegacyToTomlConfig, migrateFromJsonConfig, legacyAsJson, createDefaultTomlConfig]
      rw [jsOrS_some_of_ne _ hne]
      split <;> rfl
  exact ⟨hcur, hcur ▸ hvalid⟩

/-- C9 counterexample: the claim also asserts that an invalid preferred
language is coerced to its default by the write operation; in fact the
write path persists an unsupported, non-empty preferred language
unchanged (only the legacy-JSON read path sanitizes it). -/
theorem c9_counterexample :
    (writeZcfConfigVal none "T"
          { version := "1.0.0", preferredLang := "xx", templateLang := none,
            aiOutputLang := none, outputStyles := none, defaultOutputStyle := none,
            codeToolType := "claude-code", lastUpdated := "T" }).general.preferredLang = "xx" ∧
      isSupportedLang "xx" = false := by
  exact ⟨rfl, by decide⟩

/-! ## C1: frame effect of `update({outputStyles: []})`

The update operation funnels the existing document through the legacy
flat shape and back through `migrateFromJsonConfig`, which cannot
represent `claudeCode.installType` (it is rebuilt from the absent
`claudeCodeInstallation` record, hence reset to `"global"`) and which
recomputes the two `enabled` flags from `general.currentTool`; absent
optional `claudeCode` fields are filled with defaults.  The remaining
fields are preserved under the stated non-degeneracy hypotheses. -/

/-- C1 (amended): on an existing persisted configuration whose
`version`, `preferredLang` and `codex.systemPromptStyle` are
non-empty, whose `templateLang` is not the empty string, and whose
`currentTool` is a valid tool identifier, `update({outputStyles: []})`
sets `claudeCode.outputStyles` to `[]` and bumps `lastUpdated`;
`general.preferredLang`, `general.templateLang` (when present),
`general.aiOutputLang`, `general.currentTool`, the top-level `version`,
`codex.systemPromptStyle`, `claudeCode.version`, and the present
optional `claudeCode` fields are unchanged — but, contrary to the
claim, `claudeCode.installType` is reset to `"global"` and the
`claudeCode.enabled` / `codex.enabled` flags are recomputed from
`general.currentTool`. -/
theorem c1_update_output_styles_frame (st : ZcfTomlConfig) (now : String)
    (hv : st.version ≠ "") (hp : st.general.preferredLang ≠ "")
    (htl : st.general.templateLang ≠ some "")
    (hct : isCodeToolType st.general.currentTool = true)
    (hsps : st.codex.systemPromptStyle ≠ "") :
    (updateZcfConfigVal (some st) now { outputStyles := some [] }).claudeCode.outputStyles = [] ∧
    (updateZcfConfigVal (some st) now { outputStyles := some [] }).lastUpdated = now ∧
    (updateZcfConfigVal (some st) now { outputStyles := some [] }).general.preferredLang
      = st.general.preferredLang ∧
    (st.general.templateLang ≠ none →
      (updateZcfConfigVal (some st) now { outputStyles := some [] }).general.templateLang
        = st.general.templateLang) ∧
    (updateZcfConfigVal (some st) now { outputStyles := some [] }).general.aiOutputLang
      = st.general.aiOutputLang ∧
    (updateZcfConfigVal (some st) now { outputStyles := some [] }).general.currentTool
      = st.general.currentTool ∧
    (updateZcfConfigVal (some st) now { outputStyles := some [] }).version = st.version ∧
    (updateZcfConfigVal (some st) now { outputStyles := some [] }).codex.systemPromptStyle
      = st.codex.systemPromptStyle ∧
    ((updateZcfConfigVal (some st) now { outputStyles := some [] }).codex.enabled = true ↔
      st.general.currentTool = "codex") ∧
    ((updateZcfConfigVal (some st) now { outputStyles := some [] }).claudeCode.enabled = true ↔
      st.general.currentTool = "claude-code") ∧
    (updateZcfConfigVal (some st) now { outputStyles := some [] }).claudeCode.installType
      = "global" ∧
    (updateZcfConfigVal (some st) now { outputStyles := some [] }).claudeCode.version
      = st.claudeCode.version ∧
    (st.claudeCode.defaultOutputStyle.isSome = true →
      (updateZcfConfigVal (some st) now { outputStyles := some [] }).claudeCode.defaultOutputStyle
        = st.claudeCode.defaultOutputStyle) ∧
    (st.claudeCode.currentProfile.isSome = true →
      (updateZcfConfigVal (some st) now { outputStyles := some [] }).claudeCode.currentProfile
        = st.claudeCode.currentProfile) ∧
    (st.claudeCode.profiles.isSome = true →
      (updateZcfConfigVal (some st) now { outputStyles := some [] }).claudeCode.profiles
        = st.claudeCode.profiles) := by
  rcases st with ⟨v, lu, ⟨pl, tl, al, ct⟩, ⟨en, os, dos, it, cp, pr, cv⟩, ⟨ce, sps⟩⟩
  simp only [ne_eq] at hv hp htl hct hsps
  have hctne := isCodeToolType_ne_empty hct
  have hcts := sanitizeCodeToolType_of_valid hct
  have htne : ∀ t, tl = some t → t ≠ "" := by
    intro t ht
    subst ht
    simpa using htl
  cases tl with
  | none =>
    refine ⟨?_, ?_, ?_, ?_, ?_, ?_, ?_, ?_, ?_, ?_, ?_, ?_, ?_, ?_, ?_⟩ <;>
      simp [updateZcfConfigVal, readZcfConfigVal, convertTomlToLegacyConfig,
        writeZcfConfigVal, convertLegacyToTomlConfig, legacyAsJson, migrateFromJsonConfig,
        createDefaultTomlConfig, writeTomlConfigVal, applyStructuredEdits,
        jsOrS, jsOrOpt, jsStr_some_eq_ite, hv, hp, hct, hsps, hctne, hcts] <;>
      first
      | rfl
      | (by_cases hnow : now = "" <;> simp [hnow])
      | (cases cv with
         | none => simp
         | some s => by_cases hs : s = "" <;> simp [jsStr_some_eq_ite, hs])
      | (intro h
         rcases Option.isSome_iff_exists.mp h with ⟨x, rfl⟩
         simp)
      | (cases al with
         | none => simp
         | some a => by_cases ha : a = "" <;> simp [jsStr_some_eq_ite, ha])
  | some t =>
    have htne' : t ≠ "" := htne t rfl
    refine ⟨?_, ?_, ?_, ?_, ?_, ?_, ?_, ?_, ?_, ?_, ?_, ?_, ?_, ?_, ?_⟩ <;>
      simp [updateZcfConfigVal, readZcfConfigVal, convertTomlToLegacyConfig,
        writeZcfConfigVal, convertLegacyToTomlConfig, legacyAsJson, migrateFromJsonConfig,
        createDefaultTomlConfig, writeTomlConfigVal, applyStructuredEdits,
        jsOrS, jsOrOpt, jsStr_some_eq_ite, hv, hp, hct, hsps, hctne, hcts, htne'] <;>
      first
      | rfl
      | (by_cases hnow : now = "" <;> simp [hnow])
      | (cases cv with
         | none => simp
         | some s => by_cases hs : s = "" <;> simp [jsStr_some_eq_ite, hs])
      | (intro h
         rcases Option.isSome_iff_exists.mp h with ⟨x, rfl⟩
         simp)
      | (cases al with
         | none => simp
         | some a => by_cases ha : a = "" <;> simp [jsStr_some_eq_ite, ha])

/-- Witness for C1 at a concrete canonical configuration. -/
theorem c1_update_output_styles_frame_witness :
    (updateZcfConfigVal
        (some { version := "1.0.0", lastUpdated := "T0",
                general := { preferredLang := "en", templateLang := some "en",
                             aiOutputLang := none, currentTool := "claude-code" },
                claudeCode := { enabled := true, outputStyles := ["engineer-professional"],
                                defaultOutputStyle := some "engineer-professional",
                                installType := "global", currentProfile := some "",
                                profiles := some [], version := none },
                codex := { enabled := false, systemPromptStyle := "engineer-professional" } })
        "T1" { outputStyles := some [] }).claudeCode.outputStyles = [] ∧
      (updateZcfConfigVal
          (some { version := "1.0.0", lastUpdated := "T0",
                  general := { preferredLang := "en", templateLang := some "en",
                               aiOutputLang := none, currentTool := "claude-code" },
                  claudeCode := { enabled := true, outputStyles := ["engineer-professional"],
                                  defaultOutputStyle := some "engineer-professional",
                                  installType := "global", currentProfile := some "",
                                  profiles := some [], version := none },
                  codex := { enabled := false, systemPromptStyle := "engineer-professional" } })
          "T1" { outputStyles := some [] }).general.preferredLang = "en" := by
  obtain ⟨h1, _, h3, _⟩ :=
    c1_update_output_styles_frame
      { version := "1.0.0", lastUpdated := "T0",
        general := { preferredLang := "en", templateLang := some "en",
                     aiOutputLang := none, currentTool := "claude-code" },
        claudeCode := { enabled := true, outputStyles := ["engineer-professional"],
                        defaultOutputStyle := some "engineer-professional",
                        installType := "global", currentProfile := some "",
                        profiles := some [], version := none },
        codex := { enabled := false, systemPromptStyle := "engineer-professional" } }
      "T1" (by decide) (by decide) (by decide) (by decide) (by decide)
  exact ⟨h1, h3⟩

/-- C1 counterexample: on a persisted configuration with
`claudeCode.installType = "local"` (all other fields canonical),
`update({outputStyles: []})` changes `claudeCode.installType` to
`"global"`, so a field other than `claudeCode.outputStyles` and
`lastUpdated` is changed, contrary to the claim. -/
theorem c1_counterexample :
    (updateZcfConfigVal
        (some { version := "1.0.0", lastUpdated := "T0",
                general := { preferredLang := "en", templateLang := some "en",
                             aiOutputLang := none, currentTool := "claude-code" },
                claudeCode := { enabled := true, outputStyles := ["engineer-professional"],
                                defaultOutputStyle := some "engineer-professional",
                                installType := "local", currentProfile := some "",
                                profiles := some [], version := none },
                codex := { enabled := false, systemPromptStyle := "engineer-professional" } })
        "T1" { outputStyles := some [] }).claudeCode.installType = "global" ∧
      ({ version := "1.0.0", lastUpdated := "T0",
         general := { preferredLang := "en", templateLang := some "en",
                      aiOutputLang := none, currentTool := "claude-code" },
         claudeCode := { enabled := true, outputStyles := ["engineer-professional"],
                         defaultOutputStyle := some "engineer-professional",
                         installType := "local", currentProfile := some "",
                         profiles := some [], version := none },
         codex := { enabled := false,
                    systemPromptStyle := "engineer-professional" } } : ZcfTomlConfig).claudeCode.installType = "local" := by
  exact ⟨rfl, rfl⟩

/-! ## C6: write/read round trip -/

/-- C6 (amended): `writeZcfConfig` followed by `readZcfConfig` returns
the input configuration exactly — provided every optional field the
writer accepts is actually present and truthy (`templateLang` and
`aiOutputLang` non-empty, `outputStyles` and `defaultOutputStyle`
present), the scalar strings are non-empty, and the tool selector is
valid.  When those provisos fail, the writer substitutes defaults and
the round trip is not the identity — see the counterexample.  (In
particular the timestamp does not change: `writeZcfConfig` itself does
not bump `lastUpdated`.) -/
theorem c6_write_read_roundtrip (st : Option ZcfTomlConfig) (now : String) (cfg : ZcfConfig)
    (hv : cfg.version ≠ "") (hp : cfg.preferredLang ≠ "") (hl : cfg.lastUpdated ≠ "")
    (ht : ∃ t, cfg.templateLang = some t ∧ t ≠ "")
    (ha : ∃ a, cfg.aiOutputLang = some a ∧ a ≠ "")
    (ho : cfg.outputStyles.isSome = true) (hd : cfg.defaultOutputStyle.isSome = true)
    (hc : isCodeToolType cfg.codeToolType = true) :
    convertTomlToLegacyConfig (writeZcfConfigVal st now cfg) = cfg := by
  rcases cfg with ⟨v, pl, tl, al, os, dos, ctt, lu⟩
  simp only [ne_eq] at hv hp hl hc
  obtain ⟨t, rfl, htne⟩ := ht
  obtain ⟨a, rfl, hane⟩ := ha
  obtain ⟨l, rfl⟩ := Option.isSome_iff_exists.mp ho
  obtain ⟨d, rfl⟩ := Option.isSome_iff_exists.mp hd
  have hctne := isCodeToolType_ne_empty hc
  have hcts := sanitizeCodeToolType_of_valid hc
  cases st with
  | none =>
    simp [convertTomlToLegacyConfig, writeZcfConfigVal, writeTomlConfigVal,
      convertLegacyToTomlConfig, legacyAsJson, migrateFromJsonConfig, createDefaultTomlConfig,
      jsOrS, jsOrOpt, jsStr_some_eq_ite, hv, hp, hl, hc, hctne, hcts, htne, hane]
  | some e =>
    simp [convertTomlToLegacyConfig, writeZcfConfigVal, writeTomlConfigVal,
      applyStructuredEdits, convertLegacyToTomlConfig, legacyAsJson, migrateFromJsonConfig,
      createDefaultTomlConfig, jsOrS, jsOrOpt, jsStr_some_eq_ite, hv, hp, hl, hc, hctne, hcts,
      htne, hane]
    by_cases hsps : e.codex.systemPromptStyle = "" <;> simp [hsps]

/-- Witness for C6 at a concrete fully-populated configuration. -/
theorem c6_write_read_roundtrip_witness :
    convertTomlToLegacyConfig
        (writeZcfConfigVal none "T"
          { version := "1.0.0", preferredLang := "zh-CN", templateLang := some "en",
            aiOutputLang := some "zh-CN", outputStyles := some ["engineer-professional"],
            defaultOutputStyle := some "engineer-professional", codeToolType := "codex",
            lastUpdated := "T0" }) =
      { version := "1.0.0", preferredLang := "zh-CN", templateLang := some "en",
        aiOutputLang := some "zh-CN", outputStyles := some ["engineer-professional"],
        defaultOutputStyle := some "engineer-professional", codeToolType := "codex",
        lastUpdated := "T0" } := by
  exact c6_write_read_roundtrip none "T"
    { version := "1.0.0", preferredLang := "zh-CN", templateLang := some "en",
      aiOutputLang := some "zh-CN", outputStyles := some ["engineer-professional"],
      defaultOutputStyle := some "engineer-professional", codeToolType := "codex",
      lastUpdated := "T0" }
    (by decide) (by decide) (by decide) ⟨"en", rfl, by decide⟩ ⟨"zh-CN", rfl, by decide⟩
    rfl rfl (by decide)

/-- C6 counterexample: on a configuration with `templateLang` absent
(a configuration the writer accepts), the round trip does not return
the input — the read-back `templateLang` has been defaulted to the
preferred language, a difference in a field other than the timestamp,
contrary to the claim. -/
theorem c6_counterexample :
    (convertTomlToLegacyConfig
        (writeZcfConfigVal none "T"
          { version := "1.0.0", preferredLang := "en", templateLang := none,
            aiOutputLang := none, outputStyles := some ["engineer-professional"],
            defaultOutputStyle := some "engineer-professional", codeToolType := "claude-code",
            lastUpdated := "T0" })).templateLang = some "en" ∧
      ({ version := "1.0.0", preferredLang := "en", templateLang := none,
         aiOutputLang := none, outputStyles := some ["engineer-professional"],
         defaultOutputStyle := some "engineer-professional", codeToolType := "claude-code",
         lastUpdated := "T0" } : ZcfConfig).templateLang = none := by
  exact ⟨rfl, rfl⟩

/-! ## Lemmas about the filesystem model -/

theorem find_filter_ne (p q : Path) (l : List (Path × FileData)) :
    (l.filter (fun e => e.1 ≠ p)).find? (fun e => e.1 = q) =
      if q = p then none else l.find? (fun e => e.1 = q) := by
  induction l with
  | nil =>
    simp only [List.filter_nil, List.find?_nil]
    split <;> rfl
  | cons e t ih =>
    by_cases hqp : q = p
    · subst hqp
      simp only [if_pos rfl] at ih ⊢
      by_cases hep : e.1 = q
      · rw [List.filter_cons_of_neg (by simp [hep])]
        exact ih
      · rw [List.filter_cons_of_pos (by simp [hep]), List.find?_cons_of_neg _ (by simp [hep])]
        exact ih
    · simp only [if_neg hqp] at ih ⊢
      by_cases hep : e.1 = p
      · have heq : ¬ e.1 = q := fun h => hqp (h ▸ hep ▸ rfl)
        rw [List.filter_cons_of_neg (by simp [hep]), ih,
          List.find?_cons_of_neg _ (by simp [heq])]
      · rw [List.filter_cons_of_pos (by simp [hep])]
        by_cases heq : e.1 = q
        · rw [List.find?_cons_of_pos _ (by simp [heq]), List.find?_cons_of_pos _ (by simp [heq])]
        · rw [List.find?_cons_of_neg _ (by simp [heq]), List.find?_cons_of_neg _ (by simp [heq]),
            ih]

theorem lookup_removeFile (fs : FS) (p q : Path) :
    (fs.removeFile p).lookup q = if q = p then none else fs.lookup q := by
  simp only [FS.removeFile, FS.lookup, find_filter_ne]
  split <;> rfl

theorem lookup_setFile (fs : FS) (p : Path) (d : FileData) (q : Path) :
    (fs.setFile p d).lookup q = if q = p then some d else fs.lookup q := by
  by_cases hqp : q = p
  · subst hqp
    simp only [FS.setFile, FS.lookup, if_pos rfl]
    rw [List.find?_cons_of_pos _ (by simp)]
    simp
  · simp only [FS.setFile, FS.lookup, if_neg hqp]
    rw [List.find?_cons_of_neg _ (by simp; exact fun h => hqp h.symm), find_filter_ne,
      if_neg hqp]

/-- Best-effort removal never escapes: on a state whose removals do not
fault, it deletes exactly the named files. -/
theorem rmBestEffort_fst_existsFile (fs : FS) (hrm : ∀ p, fs.rmFault p = false)
    (paths : List Path) (acc : List Path) (q : Path) :
    (rmBestEffort fs paths acc).1.existsFile q =
      (fs.existsFile q && !(paths.contains q)) := by
  induction paths generalizing fs acc with
  | nil => simp [rmBestEffort]
  | cons p rest ih =>
    simp only [rmBestEffort, FS.rmForce, hrm p, if_false, Bool.false_eq_true]
    rw [ih (fs.removeFile p) (fun r => hrm r) (acc ++ [p])]
    by_cases hqp : q = p
    · subst hqp
      simp [FS.existsFile, lookup_removeFile]
    · simp only [FS.existsFile, lookup_removeFile, if_neg hqp, List.contains_cons]
      have hb : (q == p) = false := by
        simp [hqp]
      simp [hb]

/-- Shared helper: the migration returns a result (no exception
escapes) whenever directory creation does not fault and every rename
either succeeds or fails cross-device with a working copy/delete
fallback; removal faults during cleanup are irrelevant. -/
theorem migrateF_ok_of_no_move_faults (fs : FS)
    (hmk : ∀ p, fs.mkdirFault p = false)
    (hrn : ∀ p q, fs.renameFault p q = none ∨
      (fs.renameFault p q = some ErrCode.exdev ∧ fs.copyFault p q = false ∧
        fs.rmFault p = false)) :
    ∃ r fs', migrateZcfConfigIfNeededF fs = .ok (r, fs') := by
  unfold migrateZcfConfigIfNeededF
  cases hflt : LEGACY_ZCF_CONFIG_FILES.filter (fun p => fs.existsFile p) with
  | nil => exact ⟨_, _, rfl⟩
  | cons source leftovers =>
    have hex : fs.existsFile source := by
      have hmem : source ∈ LEGACY_ZCF_CONFIG_FILES.filter (fun p => fs.existsFile p) := by
        rw [hflt]
        exact List.mem_cons_self _ _
      exact (List.mem_filter.mp hmem).2
    obtain ⟨d, hd⟩ := Option.isSome_iff_exists.mp hex
    simp only [FS.lookup] at hd
    by_cases htgt : fs.existsFile ZCF_CONFIG_FILE
    · simp [htgt]
    · simp only [htgt, if_false, Bool.false_eq_true]
      have hstep : (if fs.existsDir ZCF_CONFIG_DIR then .ok fs else fs.mkdir ZCF_CONFIG_DIR :
          Except ErrCode FS) = .ok (if fs.existsDir ZCF_CONFIG_DIR then fs
            else { fs with dirs := ZCF_CONFIG_DIR :: fs.dirs }) := by
        by_cases hdir : fs.existsDir ZCF_CONFIG_DIR <;> simp [hdir, FS.mkdir, hmk]
      rw [hstep]
      have hmove : ∀ dirs', ∃ fsm, moveWithExdevFallback { fs with dirs := dirs' }
          source ZCF_CONFIG_FILE = .ok fsm := by
        intro dirs'
        unfold moveWithExdevFallback
        rcases hrn source ZCF_CONFIG_FILE with hnone | ⟨hxd, hcp, hrm⟩
        · simp [FS.rename, hnone, FS.lookup, hd]
        · simp [FS.rename, hxd, FS.copyFile, hcp, FS.rmForce, hrm, FS.lookup, hd,
            FS.setFile, FS.removeFile]
      by_cases hdir : fs.existsDir ZCF_CONFIG_DIR
      · simp only [hdir, if_true]
        obtain ⟨fsm, hfsm⟩ := hmove fs.dirs
        have hmv : moveWithExdevFallback fs source ZCF_CONFIG_FILE = .ok fsm := by
          simpa using hfsm
        rw [hmv]
        exact ⟨_, _, rfl⟩
      · simp only [hdir, if_false, Bool.false_eq_true]
        obtain ⟨fsm, hfsm⟩ := hmove (ZCF_CONFIG_DIR :: fs.dirs)
        rw [hfsm]
        exact ⟨_, _, rfl⟩

/-! ## C2: the migration and exceptions -/

/-- C2 (amended): deletion failures during cleanup are swallowed and
the call returns a migration result whenever directory creation and
the data move itself succeed (the rename succeeding, or failing
cross-device with the copy-and-delete fallback succeeding).  The
removal faults of the state are unconstrained, so every cleanup
deletion is allowed to fail.  A non-cross-device move failure,
however, escapes — see the counterexample. -/
theorem c2_migration_no_throw (fs : FS)
    (hmk : ∀ p, fs.mkdirFault p = false)
    (hrn : ∀ p q, fs.renameFault p q = none ∨
      (fs.renameFault p q = some ErrCode.exdev ∧ fs.copyFault p q = false ∧
        fs.rmFault p = false)) :
    ∃ r fs', migrateZcfConfigIfNeededF fs = .ok (r, fs') :=
  migrateF_ok_of_no_move_faults fs hmk hrn

/-- Witness for C2 at a concrete state whose every removal faults: the
cleanup failures are swallowed and a result is still returned. -/
theorem c2_migration_no_throw_witness :
    ∃ r fs', migrateZcfConfigIfNeededF
      { files := [("HOME/.zcf.json", FileData.corrupt),
                  ("HOME/.claude/.zcf-config.json", FileData.corrupt)],
        dirs := [], renameFault := fun _ _ => none, copyFault := fun _ _ => false,
        rmFault := fun _ => true, mkdirFault := fun _ => false } = .ok (r, fs') :=
  c2_migration_no_throw _ (fun _ => rfl) (fun _ _ => Or.inl rfl)

/-- C2 counterexample: on a state where the target is absent, one
legacy candidate exists, and the rename fails with a non-`EXDEV` code
(for instance a permission error), `migrateZcfConfigIfNeeded`
re-throws the error instead of returning a migration result, so the
operation does not "never throw, for every filesystem state". -/
theorem c2_counterexample :
    migrateZcfConfigIfNeededF
        { files := [("HOME/.zcf.json", FileData.corrupt)], dirs := [],
          renameFault := fun _ _ => some ErrCode.other, copyFault := fun _ _ => false,
          rmFault := fun _ => false, mkdirFault := fun _ => false } =
      .error ErrCode.other := by
  rfl

/-! ## C7: idempotence of the migration -/

/-- C7: on a fault-free filesystem state, running the migration twice
yields the same end state as running it once — the second run finds no
legacy source, is a no-op (`migrated = false`) and returns the first
run's state unchanged — and no legacy candidate file remains after
either call. -/
theorem c7_migration_idempotent (fs : FS) (hff : FaultFree fs) :
    ∃ r1 fs1 r2, migrateZcfConfigIfNeededF fs = .ok (r1, fs1) ∧
      migrateZcfConfigIfNeededF fs1 = .ok (r2, fs1) ∧
      (∀ p ∈ LEGACY_ZCF_CONFIG_FILES, fs1.existsFile p = false) ∧
      r2.migrated = false := by
  obtain ⟨hrn, hcp, hrm, hmk⟩ := hff
  have noop : ∀ fs1 : FS, (∀ p ∈ LEGACY_ZCF_CONFIG_FILES, fs1.existsFile p = false) →
      migrateZcfConfigIfNeededF fs1 =
        .ok ({ migrated := false, source := none, target := ZCF_CONFIG_FILE, removed := [] },
          fs1) := by
    intro fs1 h
    unfold migrateZcfConfigIfNeededF
    have hnil : LEGACY_ZCF_CONFIG_FILES.filter (fun p => fs1.existsFile p) = [] := by
      refine List.filter_eq_nil_iff.mpr ?_
      intro a ha
      simp [h a ha]
    rw [hnil]
  unfold migrateZcfConfigIfNeededF
  cases hflt : LEGACY_ZCF_CONFIG_FILES.filter (fun p => fs.existsFile p) with
  | nil =>
    have habs : ∀ p ∈ LEGACY_ZCF_CONFIG_FILES, fs.existsFile p = false := by
      intro p hp
      by_contra hc
      have hmem : p ∈ LEGACY_ZCF_CONFIG_FILES.filter (fun p => fs.existsFile p) :=
        List.mem_filter.mpr ⟨hp, by simpa using hc⟩
      rw [hflt] at hmem
      exact absurd hmem (List.not_mem_nil p)
    exact ⟨_, fs, _, rfl, noop fs habs, habs, rfl⟩
  | cons source leftovers =>
    have hmemflt : ∀ x, fs.existsFile x → x ∈ LEGACY_ZCF_CONFIG_FILES →
        x ∈ source :: leftovers := by
      intro x hx hmem
      rw [← hflt]
      exact List.mem_filter.mpr ⟨hmem, by simpa using hx⟩
    have hsrcleg : source ∈ LEGACY_ZCF_CONFIG_FILES ∧ fs.existsFile source := by
      have hmem : source ∈ LEGACY_ZCF_CONFIG_FILES.filter (fun p => fs.existsFile p) := by
        rw [hflt]
        exact List.mem_cons_self _ _
      have h2 := List.mem_filter.mp hmem
      exact ⟨h2.1, by simpa using h2.2⟩
    have htgtleg : ¬ (ZCF_CONFIG_FILE ∈ LEGACY_ZCF_CONFIG_FILES) := by decide
    by_cases htgt : fs.existsFile ZCF_CONFIG_FILE
    · simp only [htgt, if_true]
      have habs : ∀ p ∈ LEGACY_ZCF_CONFIG_FILES,
          (rmBestEffort fs (source :: leftovers) []).1.existsFile p = false := by
        intro p hp
        rw [rmBestEffort_fst_existsFile fs hrm]
        by_cases he : fs.existsFile p
        · have hin : p ∈ source :: leftovers := hmemflt p he hp
          have hc : (source :: leftovers).contains p = true := List.elem_iff.mpr hin
          rw [hc]
          simp
        · simp only [Bool.not_eq_true] at he
          simp [he]
      exact ⟨_, _, _, rfl, noop _ habs, habs, rfl⟩
    · simp only [htgt, if_false, Bool.false_eq_true]
      obtain ⟨d, hd⟩ := Option.isSome_iff_exists.mp hsrcleg.2
      simp only [FS.lookup] at hd
      have hmove : ∀ dirs', moveWithExdevFallback { fs with dirs := dirs' }
          source ZCF_CONFIG_FILE =
            .ok ((({ fs with dirs := dirs' } : FS).removeFile source).setFile
              ZCF_CONFIG_FILE d) := by
        intro dirs'
        unfold moveWithExdevFallback
        simp [FS.rename, hrn, FS.lookup, hd]
      have habs : ∀ dirs', ∀ p ∈ LEGACY_ZCF_CONFIG_FILES,
          (rmBestEffort ((({ fs with dirs := dirs' } : FS).removeFile source).setFile
            ZCF_CONFIG_FILE d) leftovers []).1.existsFile p = false := by
        intro dirs' p hp
        rw [rmBestEffort_fst_existsFile
          ((({ fs with dirs := dirs' } : FS).removeFile source).setFile ZCF_CONFIG_FILE d)
          (fun r => hrm r) leftovers [] p]
        have hptgt : ¬ p = ZCF_CONFIG_FILE := fun h => htgtleg (h ▸ hp)
        by_cases hps : p = source
        · subst hps
          simp [FS.existsFile, lookup_setFile, lookup_removeFile, hptgt]
        · simp only [FS.existsFile, lookup_setFile, lookup_removeFile, if_neg hptgt,
            if_neg hps]
          by_cases he : fs.existsFile p
          · have hin : p ∈ source :: leftovers := hmemflt p he hp
            have hin2 : p ∈ leftovers := by
              cases hin with
              | head => exact absurd rfl hps
              | tail _ h => exact h
            have hc : leftovers.contains p = true := List.elem_iff.mpr hin2
            rw [hc]
            simp
          · simp only [FS.existsFile, Bool.not_eq_true, FS.lookup] at he
            simp [FS.lookup, he]
      by_cases hdir : fs.existsDir ZCF_CONFIG_DIR
      · simp only [hdir, if_true]
        have hmv : moveWithExdevFallback fs source ZCF_CONFIG_FILE =
            .ok ((fs.removeFile source).setFile ZCF_CONFIG_FILE d) := by
          simpa using hmove fs.dirs
        rw [hmv]
        have habs1 : ∀ p ∈ LEGACY_ZCF_CONFIG_FILES,
            (rmBestEffort ((fs.removeFile source).setFile ZCF_CONFIG_FILE d)
              leftovers []).1.existsFile p = false := by
          simpa using habs fs.dirs
        exact ⟨_, _, _, rfl, noop _ habs1, habs1, rfl⟩
      · simp only [hdir, if_false, Bool.false_eq_true, FS.mkdir, hmk]
        rw [hmove (ZCF_CONFIG_DIR :: fs.dirs)]
        exact ⟨_, _, _, rfl, noop _ (habs (ZCF_CONFIG_DIR :: fs.dirs)),
          habs (ZCF_CONFIG_DIR :: fs.dirs), rfl⟩

/-- Witness for C7 at a concrete fault-free state holding a corrupt
target and both legacy candidates. -/
theorem c7_migration_idempotent_witness :
    ∃ r1 fs1 r2, migrateZcfConfigIfNeededF
        { files := [("HOME/.zcf.json", FileData.corrupt),
                    ("HOME/.claude/.zcf-config.json", FileData.corrupt)],
          dirs := [], renameFault := fun _ _ => none, copyFault := fun _ _ => false,
          rmFault := fun _ => false, mkdirFault := fun _ => false } = .ok (r1, fs1) ∧
      migrateZcfConfigIfNeededF fs1 = .ok (r2, fs1) ∧
      (∀ p ∈ LEGACY_ZCF_CONFIG_FILES, fs1.existsFile p = false) ∧
      r2.migrated = false :=
  c7_migration_idempotent _
    ⟨fun _ _ => rfl, fun _ _ => rfl, fun _ => rfl, fun _ => rfl⟩

/-! ## C8: the read fallback chain -/

/-- The legacy fallback loop yields nothing when no legacy file
normalizes. -/
theorem readLegacyChain_none (now : String) (fs : FS) (paths : List Path)
    (h : ∀ p ∈ paths, normalizeZcfConfig now (readJsonConfigF fs p) = none) :
    readLegacyChain now fs paths = none := by
  induction paths with
  | nil => rfl
  | cons p rest ih =>
    by_cases he : fs.existsFile p
    · simp only [readLegacyChain, he, if_true, h p (List.mem_cons_self _ _)]
      exact ih (fun q hq => h q (List.mem_cons_of_mem _ hq))
    · simp only [readLegacyChain, he, Bool.false_eq_true, if_false]
      exact ih (fun q hq => h q (List.mem_cons_of_mem _ hq))

/-- C8: `readZcfConfig` first runs the legacy-location migration and
then reads from the migrated state; the structured read of the
canonical document wins when it parses; corrupt contents (a parse
error) are treated exactly like an absent document and never escape to
the caller; on failure the flat-JSON fallbacks are consulted — the
canonical path with its extension swapped to `.json` first, then each
legacy path in priority order — and the result is the first
successfully normalized record, or nothing when none succeeds. -/
theorem c8_read_fallback_chain (now : String) (fs : FS) (hff : FaultFree fs) :
    ∃ r1 fs1, migrateZcfConfigIfNeededF fs = .ok (r1, fs1) ∧
      readZcfConfigF now fs = .ok (readAfterMigration now fs1, fs1) ∧
      (∀ t, readTomlConfigF fs1 ZCF_CONFIG_FILE = some t →
        readAfterMigration now fs1 = some (convertTomlToLegacyConfig t)) ∧
      (fs1.lookup ZCF_CONFIG_FILE = some FileData.corrupt →
        readTomlConfigF fs1 ZCF_CONFIG_FILE = none) ∧
      (readTomlConfigF fs1 ZCF_CONFIG_FILE = none →
        ∀ n, normalizeZcfConfig now
            (readJsonConfigF fs1 (ZCF_CONFIG_FILE.replace ".toml" ".json")) = some n →
          readAfterMigration now fs1 = some n) ∧
      (readTomlConfigF fs1 ZCF_CONFIG_FILE = none →
        normalizeZcfConfig now
            (readJsonConfigF fs1 (ZCF_CONFIG_FILE.replace ".toml" ".json")) = none →
        readAfterMigration now fs1 = readLegacyChain now fs1 LEGACY_ZCF_CONFIG_FILES) ∧
      (readTomlConfigF fs1 ZCF_CONFIG_FILE = none →
        normalizeZcfConfig now
            (readJsonConfigF fs1 (ZCF_CONFIG_FILE.replace ".toml" ".json")) = none →
        (∀ p ∈ LEGACY_ZCF_CONFIG_FILES,
          normalizeZcfConfig now (readJsonConfigF fs1 p) = none) →
        readAfterMigration now fs1 = none) := by
  obtain ⟨hrn, hcp, hrm, hmk⟩ := hff
  obtain ⟨r1, fs1, h1⟩ := migrateF_ok_of_no_move_faults fs hmk (fun p q => Or.inl (hrn p q))
  refine ⟨r1, fs1, h1, ?_, ?_, ?_, ?_, ?_, ?_⟩
  · unfold readZcfConfigF
    rw [h1]
    rfl
  · intro t ht
    unfold readAfterMigration
    rw [ht]
  · intro hc
    unfold readTomlConfigF
    rw [hc]
  · intro ht n hn
    unfold readAfterMigration
    rw [ht, hn]
  · intro ht hn
    unfold readAfterMigration
    rw [ht, hn]
  · intro ht hn hall
    unfold readAfterMigration
    rw [ht, hn]
    exact readLegacyChain_none now fs1 _ hall

/-- Witness for C8 at a concrete fault-free state whose canonical
document is corrupt and whose extension-swapped JSON sibling holds a
legacy record. -/
theorem c8_read_fallback_chain_witness :
    ∃ r1 fs1, migrateZcfConfigIfNeededF
        { files := [(ZCF_CONFIG_FILE, FileData.corrupt),
                    ("HOME/.ufomiao/zcf/config.json",
                      FileData.json { preferredLang := some "en" })],
          dirs := ["HOME/.ufomiao/zcf"], renameFault := fun _ _ => none,
          copyFault := fun _ _ => false, rmFault := fun _ => false,
          mkdirFault := fun _ => false } = .ok (r1, fs1) ∧
      readZcfConfigF "T"
        { files := [(ZCF_CONFIG_FILE, FileData.corrupt),
                    ("HOME/.ufomiao/zcf/config.json",
                      FileData.json { preferredLang := some "en" })],
          dirs := ["HOME/.ufomiao/zcf"], renameFault := fun _ _ => none,
          copyFault := fun _ _ => false, rmFault := fun _ => false,
          mkdirFault := fun _ => false } = .ok (readAfterMigration "T" fs1, fs1) ∧
      (∀ t, readTomlConfigF fs1 ZCF_CONFIG_FILE = some t →
        readAfterMigration "T" fs1 = some (convertTomlToLegacyConfig t)) ∧
      (fs1.lookup ZCF_CONFIG_FILE = some FileData.corrupt →
        readTomlConfigF fs1 ZCF_CONFIG_FILE = none) ∧
      (readTomlConfigF fs1 ZCF_CONFIG_FILE = none →
        ∀ n, normalizeZcfConfig "T"
            (readJsonConfigF fs1 (ZCF_CONFIG_FILE.replace ".toml" ".json")) = some n →
          readAfterMigration "T" fs1 = some n) ∧
      (readTomlConfigF fs1 ZCF_CONFIG_FILE = none →
        normalizeZcfConfig "T"
            (readJsonConfigF fs1 (ZCF_CONFIG_FILE.replace ".toml" ".json")) = none →
        readAfterMigration "T" fs1 = readLegacyChain "T" fs1 LEGACY_ZCF_CONFIG_FILES) ∧
      (readTomlConfigF fs1 ZCF_CONFIG_FILE = none →
        normalizeZcfConfig "T"
            (readJsonConfigF fs1 (ZCF_CONFIG_FILE.replace ".toml" ".json")) = none →
        (∀ p ∈ LEGACY_ZCF_CONFIG_FILES,
          normalizeZcfConfig "T" (readJsonConfigF fs1 p) = none) →
        readAfterMigration "T" fs1 = none) :=
  c8_read_fallback_chain "T" _
    ⟨fun _ _ => rfl, fun _ _ => rfl, fun _ => rfl, fun _ => rfl⟩

/-! ## C4: the separator between the top-level span and the rest -/

/-- Number of trailing newline characters of a text (the separator run
between the patched top-level span and the rest). -/
def trailingNewlineCount (cs : Text) : Nat :=
  (cs.reverse.takeWhile (fun c => c = '\n')).length

theorem getLast_append_singleton (l : List Char) (a : Char) :
    (l ++ [a]).getLast? = some a := by
  induction l with
  | nil => rfl
  | cons c t ih =>
    rw [List.cons_append, List.getLast?_cons, ih]
    cases t <;> rfl

theorem trailingNewlineCount_pos_of_getLast (cs : Text) (h : cs.getLast? = some '\n') :
    1 ≤ trailingNewlineCount cs := by
  unfold trailingNewlineCount
  rw [List.getLast?_eq_head?_reverse] at h
  cases hrev : cs.reverse with
  | nil => rw [hrev] at h; exact absurd h (by simp)
  | cons c t =>
    rw [hrev] at h
    have hc : c = '\n' := by
      simpa using h
    subst hc
    simp [List.takeWhile_cons]

/-- C4 (amended): for every input document whose rest part is
non-empty, `updateTopLevelTomlFields` returns the patched span
followed by the untouched rest, and the span ends with at least one
newline (a newline is appended exactly when the span does not already
end with one).  The function never collapses a pre-existing run of
blank lines, so more than one newline may separate the two parts —
see the counterexample. -/
theorem c4_trailing_separator (content version lastUpdated : Text)
    (hrest : (splitAtFirstSection content true).2 ≠ []) :
    updateTopLevelTomlFields content version lastUpdated =
      ensureTrailingSep
        (patchTopLevelSpan (splitAtFirstSection content true).1 version lastUpdated)
        (splitAtFirstSection content true).2 ++
        (splitAtFirstSection content true).2 ∧
      1 ≤ trailingNewlineCount
        (ensureTrailingSep
          (patchTopLevelSpan (splitAtFirstSection content true).1 version lastUpdated)
          (splitAtFirstSection content true).2) := by
  refine ⟨rfl, ?_⟩
  unfold ensureTrailingSep
  split
  · exact trailingNewlineCount_pos_of_getLast _ (getLast_append_singleton _ _)
  · rename_i hcond
    have hlen : 0 < (splitAtFirstSection content true).2.length :=
      List.length_pos.mpr hrest
    by_cases h1 : endsWithNl (patchTopLevelSpan (splitAtFirstSection content true).1
        version lastUpdated)
    · exact trailingNewlineCount_pos_of_getLast _ (by simpa [endsWithNl] using h1)
    · exfalso
      by_cases h2 : endsWithNlNl (patchTopLevelSpan (splitAtFirstSection content true).1
          version lastUpdated)
      · -- ends with two newlines, hence with one
        apply h1
        unfold endsWithNlNl at h2
        unfold endsWithNl
        rw [List.getLast?_eq_head?_reverse]
        split at h2
        · rename_i heq
          rw [heq]
          rfl
        · exact absurd h2 (by simp)
      · exact hcond (by simp [hlen, h1, h2])

/-- Witness for C4 at a concrete document with a section. -/
theorem c4_trailing_separator_witness :
    updateTopLevelTomlFields ("a = 1\n[s]\nx = 2".toList) ("1.0.0".toList) ("TS".toList) =
      ensureTrailingSep
        (patchTopLevelSpan (splitAtFirstSection ("a = 1\n[s]\nx = 2".toList) true).1
          ("1.0.0".toList) ("TS".toList))
        (splitAtFirstSection ("a = 1\n[s]\nx = 2".toList) true).2 ++
        (splitAtFirstSection ("a = 1\n[s]\nx = 2".toList) true).2 ∧
      1 ≤ trailingNewlineCount
        (ensureTrailingSep
          (patchTopLevelSpan (splitAtFirstSection ("a = 1\n[s]\nx = 2".toList) true).1
            ("1.0.0".toList) ("TS".toList))
          (splitAtFirstSection ("a = 1\n[s]\nx = 2".toList) true).2) :=
  c4_trailing_separator ("a = 1\n[s]\nx = 2".toList) ("1.0.0".toList) ("TS".toList)
    (by decide)

/-- C4 counterexample: on a document whose top-level span already ends
with a blank line, the patched span is separated from the rest by two
newline characters, not exactly one. -/
theorem c4_counterexample :
    trailingNewlineCount
        (ensureTrailingSep
          (patchTopLevelSpan (splitAtFirstSection ("x = 1\n\n[a]\nb = 1".toList) true).1
            ("1.0.0".toList) ("TS".toList))
          (splitAtFirstSection ("x = 1\n\n[a]\nb = 1".toList) true).2) = 2 ∧
      (splitAtFirstSection ("x = 1\n\n[a]\nb = 1".toList) true).2 ≠ [] := by
  constructor
  · rfl
  · decide

/-! ## C3: insertion order of the two patched fields -/

theorem splitNl_cons_lf (cs : Text) : splitNl ('\n' :: cs) = [] :: splitNl cs := by
  rw [splitNl]
  rw [if_pos rfl]

theorem splitNl_cons_ne (c : Char) (cs : Text) (h : c ≠ '\n') :
    splitNl (c :: cs) =
      match splitNl cs with
      | [] => [[c]]
      | l :: ls => (c :: l) :: ls := by
  rw [splitNl]
  rw [if_neg h]

theorem splitNl_ne_nil (cs : Text) : splitNl cs ≠ [] := by
  cases cs with
  | nil => simp [splitNl]
  | cons c t =>
    by_cases h : c = '\n'
    · subst h
      rw [splitNl_cons_lf]
      simp
    · rw [splitNl_cons_ne c t h]
      cases splitNl t <;> simp

theorem mem_splitNl_no_lf (cs : Text) : ∀ l ∈ splitNl cs, '\n' ∉ l := by
  induction cs with
  | nil =>
    intro l hl
    simp [splitNl] at hl
    simp [hl]
  | cons c t ih =>
    intro l hl
    by_cases h : c = '\n'
    · subst h
      rw [splitNl_cons_lf] at hl
      rcases List.mem_cons.mp hl with h1 | h1
      · simp [h1]
      · exact ih l h1
    · rw [splitNl_cons_ne c t h] at hl
      rcases hsp : splitNl t with _ | ⟨m, ms⟩
      · exact absurd hsp (splitNl_ne_nil t)
      · rw [hsp] at hl
        rcases List.mem_cons.mp hl with h1 | h1
        · subst h1
          intro hmem
          rcases List.mem_cons.mp hmem with h2 | h2
          · exact h h2.symm
          · exact ih m (hsp ▸ List.mem_cons_self _ _) h2
        · exact ih l (hsp ▸ List.mem_cons_of_mem _ h1)

theorem mem_splitNl_sub (cs : Text) : ∀ l ∈ splitNl cs, ∀ c ∈ l, c ∈ cs := by
  induction cs with
  | nil =>
    intro l hl c hc
    simp [splitNl] at hl
    subst hl
    exact absurd hc (List.not_mem_nil c)
  | cons x t ih =>
    intro l hl c hc
    by_cases h : x = '\n'
    · subst h
      rw [splitNl_cons_lf] at hl
      rcases List.mem_cons.mp hl with h1 | h1
      · subst h1
        exact absurd hc (List.not_mem_nil c)
      · exact List.mem_cons_of_mem _ (ih l h1 c hc)
    · rw [splitNl_cons_ne x t h] at hl
      rcases hsp : splitNl t with _ | ⟨m, ms⟩
      · exact absurd hsp (splitNl_ne_nil t)
      · rw [hsp] at hl
        rcases List.mem_cons.mp hl with h1 | h1
        · subst h1
          rcases List.mem_cons.mp hc with h2 | h2
          · exact h2 ▸ List.mem_cons_self _ _
          · exact List.mem_cons_of_mem _ (ih m (hsp ▸ List.mem_cons_self _ _) c h2)
        · exact List.mem_cons_of_mem _ (ih l (hsp ▸ List.mem_cons_of_mem _ h1) c hc)

theorem joinNl_cons (l : Text) (ls : List Text) (h : ls ≠ []) :
    joinNl (l :: ls) = l ++ '\n' :: joinNl ls := by
  cases ls with
  | nil => exact absurd rfl h
  | cons m ms => rfl

theorem joinNl_splitNl (cs : Text) : joinNl (splitNl cs) = cs := by
  induction cs with
  | nil => rfl
  | cons c t ih =>
    by_cases h : c = '\n'
    · subst h
      rw [splitNl_cons_lf, joinNl_cons _ _ (splitNl_ne_nil t), ih]
      rfl
    · rw [splitNl_cons_ne c t h]
      rcases hsp : splitNl t with _ | ⟨m, ms⟩
      · exact absurd hsp (splitNl_ne_nil t)
      · rw [hsp] at ih
        cases ms with
        | nil =>
          simp only [joinNl] at ih ⊢
          rw [ih]
        | cons m2 ms2 =>
          rw [joinNl_cons _ _ (by simp)] at ih ⊢
          simp only [List.cons_append, List.append_assoc] at ih ⊢
          rw [ih]

theorem splitNl_append_lf (xs ys : Text) (h : '\n' ∉ xs) :
    splitNl (xs ++ '\n' :: ys) = xs :: splitNl ys := by
  induction xs with
  | nil =>
    rw [List.nil_append, splitNl_cons_lf]
  | cons c t ih =>
    have hc : c ≠ '\n' := fun hh => h (hh ▸ List.mem_cons_self _ _)
    have ht : '\n' ∉ t := fun hh => h (List.mem_cons_of_mem _ hh)
    rw [List.cons_append, splitNl_cons_ne c _ hc, ih ht]

theorem splitNl_joinNl_clean (L : List Text) (hne : L ≠ []) (h : ∀ l ∈ L, '\n' ∉ l) :
    splitNl (joinNl L) = L := by
  induction L with
  | nil => exact absurd rfl hne
  | cons l ls ih =>
    cases ls with
    | nil =>
      simp only [joinNl]
      have hl := h l (List.mem_cons_self _ _)
      clear ih hne h
      induction l with
      | nil => rfl
      | cons c t iht =>
        have hc : c ≠ '\n' := fun hh => hl (hh ▸ List.mem_cons_self _ _)
        rw [splitNl_cons_ne c t hc, iht (fun hh => hl (List.mem_cons_of_mem _ hh))]
    | cons m ms =>
      rw [joinNl_cons _ _ (by simp), splitNl_append_lf _ _ (h l (List.mem_cons_self _ _))]
      rw [ih (by simp) (fun x hx => h x (List.mem_cons_of_mem _ hx))]

theorem joinNl_append_linesText (P RL : List Text) (h : RL ≠ []) :
    joinNl (P ++ RL) = linesText P ++ joinNl RL := by
  induction P with
  | nil => rfl
  | cons l P' ih =>
    have hne : P' ++ RL ≠ [] := by
      cases P' <;> simp [h]
    rw [List.cons_append, joinNl_cons _ _ hne, ih, linesText]
    simp [List.append_assoc]

theorem splitNl_linesText_append (P : List Text) (rest : Text)
    (h : ∀ l ∈ P, '\n' ∉ l) :
    splitNl (linesText P ++ rest) = P ++ splitNl rest := by
  induction P with
  | nil => rfl
  | cons l P' ih =>
    simp only [linesText, List.append_assoc, List.cons_append]
    rw [splitNl_append_lf _ _ (h l (List.mem_cons_self _ _))]
    rw [ih (fun x hx => h x (List.mem_cons_of_mem _ hx))]

theorem takeWhile_append_all {p : Char → Bool} (xs ys : Text) (h : ∀ c ∈ xs, p c = true) :
    (xs ++ ys).takeWhile p = xs ++ ys.takeWhile p := by
  induction xs with
  | nil => rfl
  | cons c t ih =>
    rw [List.cons_append, List.takeWhile_cons, h c (List.mem_cons_self _ _)]
    simp only [if_true]
    rw [ih (fun x hx => h x (List.mem_cons_of_mem _ hx))]
    rfl

theorem dropWhile_append_all {p : Char → Bool} (xs ys : Text) (h : ∀ c ∈ xs, p c = true) :
    (xs ++ ys).dropWhile p = ys.dropWhile p := by
  induction xs with
  | nil => rfl
  | cons c t ih =>
    rw [List.cons_append, List.dropWhile_cons, h c (List.mem_cons_self _ _)]
    simp only [if_true]
    exact ih (fun x hx => h x (List.mem_cons_of_mem _ hx))

theorem takeWhile_cons_pos {p : Char → Bool} (c : Char) (t : Text) (h : p c = true) :
    (c :: t).takeWhile p = c :: t.takeWhile p := by
  rw [List.takeWhile_cons, h]
  rw [if_pos rfl]

theorem takeWhile_cons_neg {p : Char → Bool} (c : Char) (t : Text) (h : p c = false) :
    (c :: t).takeWhile p = [] := by
  rw [List.takeWhile_cons, h]
  rfl

theorem dropWhile_cons_pos {p : Char → Bool} (c : Char) (t : Text) (h : p c = true) :
    (c :: t).dropWhile p = t.dropWhile p := by
  rw [List.dropWhile_cons, h]
  rw [if_pos rfl]

theorem dropWhile_cons_neg {p : Char → Bool} (c : Char) (t : Text) (h : p c = false) :
    (c :: t).dropWhile p = c :: t := by
  rw [List.dropWhile_cons, h]
  rfl

theorem stripKey_self (k r : Text) : stripKey k (k ++ r) = some r := by
  induction k with
  | nil => rfl
  | cons c t ih =>
    rw [List.cons_append]
    unfold stripKey
    rw [if_pos rfl]
    exact ih

theorem stripKey_none_of_head {k0 : Char} {ks : Text} (cs : Text)
    (h : cs.head? ≠ some k0) : stripKey (k0 :: ks) cs = none := by
  cases cs with
  | nil => rfl
  | cons c t =>
    have hc : ¬ c = k0 := by
      intro hh
      exact h (by simp [hh])
    unfold stripKey
    rw [if_neg hc]

/-- The field pattern fails at any position that does not begin with
the key's first character. -/
theorem matchFieldAt_none_of_head {k0 : Char} {ks : Text} (cs : Text)
    (h : cs.head? ≠ some k0) : matchFieldAt (k0 :: ks) cs = none := by
  unfold matchFieldAt
  rw [stripKey_none_of_head cs h]

theorem isLineTerm_cases {c : Char} (h : isLineTerm c = true) :
    c = '\n' ∨ c = '\r' ∨ c = ' ' ∨ c = ' ' := by
  simpa [isLineTerm] using h

theorem isSpaceTab_false_of_lineTerm {c : Char} (h : isLineTerm c = true) :
    isSpaceTab c = false := by
  rcases isLineTerm_cases h with h | h | h | h <;> subst h <;> decide

/-- The field pattern matches a constructed `key = "value"` line
exactly, when the value is plain and the line is followed by nothing
or by a line break. -/
theorem matchFieldAt_fieldAssignment (key v r : Text) (hv : PlainValue v)
    (hr : r = [] ∨ ∃ c r2, r = c :: r2 ∧ isLineTerm c = true ∧ c ≠ '#') :
    matchFieldAt key (fieldAssignment key v ++ r) = some (fieldAssignment key v, r) := by
  have hq : ∀ c ∈ v, (!isQuote c) = true := by
    intro c hc
    rw [(hv c hc).1]
    rfl
  unfold matchFieldAt fieldAssignment
  rw [List.append_assoc, stripKey_self key _]
  simp only [List.cons_append]
  rw [dropWhile_cons_pos ' ' _ (by decide), dropWhile_cons_neg '=' _ (by decide)]
  simp only []
  rw [if_true]
  rw [takeWhile_cons_pos ' ' _ (by decide), takeWhile_cons_neg '=' _ (by decide)]
  rw [dropWhile_cons_pos ' ' _ (by decide), dropWhile_cons_neg '"' _ (by decide)]
  simp only []
  rw [if_pos (show isQuote '"' = true by decide)]
  rw [takeWhile_cons_pos ' ' _ (by decide), takeWhile_cons_neg '"' _ (by decide)]
  have hassoc : (v ++ ['"']) ++ r = v ++ '"' :: r := by
    simp
  rw [hassoc]
  rw [takeWhile_append_all v _ hq, dropWhile_append_all v _ hq]
  rw [takeWhile_cons_neg '"' _ (by decide), dropWhile_cons_neg '"' _ (by decide)]
  simp only []
  rcases hr with hr | ⟨c, r2, hr, hterm, hhash⟩
  · subst hr
    simp
  · subst hr
    rw [takeWhile_cons_neg c _ (isSpaceTab_false_of_lineTerm hterm),
      dropWhile_cons_neg c _ (isSpaceTab_false_of_lineTerm hterm)]
    simp only []
    rw [if_neg hhash, if_pos hterm]
    simp

/-- Traversal of a clean line's interior (no position is a line
start): the scanner passes straight through to the text after the
following newline. -/
theorem findFieldAux_skip (key : Text) (t rest : Text) (ht : CleanLine t) :
    findFieldAux key (t ++ '\n' :: rest) false =
      (findFieldAux key rest true).map (fun x => (t ++ '\n' :: x.1, x.2.1, x.2.2)) := by
  induction t with
  | nil =>
    rw [List.nil_append, findFieldAux]
    rw [if_neg (by decide)]
    rw [show isLineTerm '\n' = true from by decide]
    cases findFieldAux key rest true <;> simp
  | cons c t' ih =>
    have hc : isLineTerm c = false := ht c (List.mem_cons_self _ _)
    have ht' : CleanLine t' := fun x hx => ht x (List.mem_cons_of_mem _ hx)
    rw [List.cons_append, findFieldAux]
    rw [if_neg (by decide)]
    rw [hc, ih ht']
    cases findFieldAux key rest true <;> simp

/-- A successful match at a line start is what the scanner returns. -/
theorem findFieldAux_hit (key : Text) (cs m r : Text)
    (h : matchFieldAt key cs = some (m, r)) :
    findFieldAux key cs true = some ([], m, r) := by
  cases cs with
  | nil =>
    rw [findFieldAux]
    rw [if_pos rfl, h]
    rfl
  | cons c t =>
    rw [findFieldAux]
    rw [if_pos rfl, h]

/-- Scanning through a run of lines none of which can start a match:
the scanner's result on the whole text is the result on the tail text,
shifted by the run. -/
theorem findFieldAux_through (k0 : Char) (ks : Text) (P RL : List Text)
    (hP : ∀ l ∈ P, CleanLine l ∧ (∀ c, l.head? = some c → c ≠ k0))
    (hk0 : k0 ≠ '\n')
    (hRL : RL ≠ []) :
    findFieldAux (k0 :: ks) (joinNl (P ++ RL)) true =
      (findFieldAux (k0 :: ks) (joinNl RL) true).map
        (fun x => (linesText P ++ x.1, x.2.1, x.2.2)) := by
  induction P with
  | nil =>
    simp only [List.nil_append, linesText]
    cases findFieldAux (k0 :: ks) (joinNl RL) true <;> simp
  | cons l P' ih =>
    have hne : P' ++ RL ≠ [] := by
      cases P' <;> simp [hRL]
    have hPl := hP l (List.mem_cons_self _ _)
    have hP' : ∀ x ∈ P', CleanLine x ∧ (∀ c, x.head? = some c → c ≠ k0) :=
      fun x hx => hP x (List.mem_cons_of_mem _ hx)
    rw [List.cons_append, joinNl_cons _ _ hne]
    cases l with
    | nil =>
      rw [List.nil_append, findFieldAux]
      rw [if_pos rfl]
      rw [matchFieldAt_none_of_head _ (by simp; exact fun hh => hk0 hh.symm)]
      simp only []
      rw [show isLineTerm '\n' = true from by decide, ih hP']
      cases findFieldAux (k0 :: ks) (joinNl RL) true <;> simp [linesText]
    | cons c t =>
      have hc : c ≠ k0 := hPl.2 c rfl
      have hcl : isLineTerm c = false := hPl.1 c (List.mem_cons_self _ _)
      have htl : CleanLine t := fun x hx => hPl.1 x (List.mem_cons_of_mem _ hx)
      rw [List.cons_append, findFieldAux]
      rw [if_pos rfl]
      rw [matchFieldAt_none_of_head _ (by simp; exact fun hh => hc hh)]
      simp only []
      rw [hcl, findFieldAux_skip _ _ _ htl, ih hP']
      cases findFieldAux (k0 :: ks) (joinNl RL) true <;>
        simp [linesText, List.append_assoc]

/-- No match can start inside a clean text that is not at a line
start. -/
theorem findFieldAux_clean_false (key t : Text) (ht : CleanLine t) :
    findFieldAux key t false = none := by
  induction t with
  | nil => rfl
  | cons c t' ih =>
    rw [findFieldAux]
    rw [if_neg (by decide)]
    rw [ht c (List.mem_cons_self _ _), ih (fun x hx => ht x (List.mem_cons_of_mem _ hx))]
    rfl

/-- On a single clean line whose head position does not match, the
scanner finds nothing. -/
theorem findFieldAux_single (key l : Text) (hl : CleanLine l)
    (hhead : matchFieldAt key l = none) :
    findFieldAux key l true = none := by
  cases l with
  | nil =>
    rw [findFieldAux]
    rw [if_pos rfl, hhead]
    rfl
  | cons c t =>
    rw [findFieldAux]
    rw [if_pos rfl, hhead]
    simp only []
    rw [hl c (List.mem_cons_self _ _),
      findFieldAux_clean_false key t (fun x hx => hl x (List.mem_cons_of_mem _ hx))]
    rfl

/-- `dropWhile` is a suffix. -/
theorem dropWhile_eq_drop_aux (p : Char → Bool) (l : Text) :
    ∃ n, l.dropWhile p = l.drop n := by
  induction l with
  | nil => exact ⟨0, rfl⟩
  | cons c t ih =>
    by_cases hc : p c = true
    · obtain ⟨n, hn⟩ := ih
      exact ⟨n + 1, by rw [dropWhile_cons_pos c t hc, List.drop_succ_cons, hn]⟩
    · exact ⟨0, by rw [dropWhile_cons_neg c t (by simpa using hc)]; rfl⟩

theorem getLast?_drop_of_lt (l : Text) (n : Nat) (h : n < l.length) :
    (l.drop n).getLast? = l.getLast? := by
  induction l generalizing n with
  | nil => simp at h
  | cons x xs ih =>
    cases n with
    | zero => rfl
    | succ n2 =>
      rw [List.drop_succ_cons, List.getLast?_cons]
      have h2 : n2 < xs.length := by simpa using h
      rw [ih n2 h2]
      cases xs with
      | nil => simp at h2
      | cons y ys => rfl

/-- A blank-or-comment line is empty or begins with whitespace or a
hash. -/
theorem blankOrComment_head {l : Text} (h : blankOrComment l = true) :
    l = [] ∨ ∃ c t, l = c :: t ∧ (isJsWs c = true ∨ c = '#') := by
  cases l with
  | nil => exact Or.inl rfl
  | cons c t =>
    refine Or.inr ⟨c, t, rfl, ?_⟩
    by_cases hws : isJsWs c = true
    · exact Or.inl hws
    · right
      have hdw : (c :: t).dropWhile isJsWs = c :: t :=
        dropWhile_cons_neg c t (by simpa using hws)
      unfold blankOrComment jsTrim at h
      rw [hdw] at h
      rcases of_decide_eq_true h with h1 | h1
      · exfalso
        have h2 : (c :: t).reverse.dropWhile isJsWs = [] := by
          have h3 := congrArg List.reverse h1
          simpa using h3
        have h3 := List.dropWhile_eq_nil_iff.mp h2
        exact hws (h3 c (by simp))
      · have hne : (c :: t).reverse.dropWhile isJsWs ≠ [] := by
          intro hnil
          rw [hnil] at h1
          simp at h1
        obtain ⟨n, hn⟩ := dropWhile_eq_drop_aux isJsWs (c :: t).reverse
        have hlt : n < (c :: t).reverse.length := by
          by_contra hge
          push_neg at hge
          rw [hn, List.drop_eq_nil_of_le hge] at hne
          exact hne rfl
        have hlast : ((c :: t).reverse.dropWhile isJsWs).getLast? =
            ((c :: t).reverse).getLast? := by
          rw [hn]
          exact getLast?_drop_of_lt _ n hlt
        have hhead : ((c :: t).reverse.dropWhile isJsWs).reverse.head? = some c := by
          rw [List.head?_reverse, hlast, List.getLast?_reverse]
          rfl
        rw [hhead] at h1
        injection h1

/-- Every line in the prefix skipped by the insertion loop is blank or
a comment. -/
theorem insertLineIdx_take (L : List Text) :
    ∀ l ∈ L.take (insertLineIdx L), blankOrComment l = true := by
  induction L with
  | nil =>
    intro l hl
    simp [insertLineIdx] at hl
  | cons x t ih =>
    intro l hl
    unfold insertLineIdx at hl
    by_cases hx : blankOrComment x = true
    · rw [if_pos hx] at hl
      rw [List.take_succ_cons] at hl
      rcases List.mem_cons.mp hl with h1 | h1
      · exact h1 ▸ hx
      · exact ih l h1
    · rw [if_neg hx] at hl
      simp at hl

theorem fieldAssignment_head (k0 : Char) (ks v : Text) :
    (fieldAssignment (k0 :: ks) v).head? = some k0 := rfl

theorem fieldAssignment_getLast (key v : Text) :
    (fieldAssignment key v).getLast? = some '"' := by
  have hsh : fieldAssignment key v = (key ++ ' ' :: '=' :: ' ' :: '"' :: v) ++ ['"'] := by
    simp [fieldAssignment]
  rw [hsh, getLast_append_singleton]

theorem stripTrailingNl_fieldAssignment (key v : Text) :
    stripTrailingNl (fieldAssignment key v) = fieldAssignment key v := by
  unfold stripTrailingNl
  rw [fieldAssignment_getLast]
  rw [if_neg (by decide)]

theorem cleanLine_fieldAssignment (key v : Text) (hk : CleanLine key) (hv : PlainValue v) :
    CleanLine (fieldAssignment key v) := by
  intro c hc
  simp only [fieldAssignment, List.mem_append, List.mem_cons] at hc
  rcases hc with hc | hc | hc | hc | hc | hc
  · exact hk c hc
  · subst hc; decide
  · subst hc; decide
  · subst hc; decide
  · subst hc; decide
  · rcases hc with hc | hc | hc
    · exact (hv c hc).2
    · subst hc; decide
    · exact absurd hc (List.not_mem_nil c)

theorem noLf_of_cleanLine {l : Text} (h : CleanLine l) : '\n' ∉ l := by
  intro hm
  have := h '\n' hm
  simp [isLineTerm] at this

theorem linesText_eq_joinNl (M : List Text) (h : M ≠ []) :
    linesText M = joinNl M ++ ['\n'] := by
  induction M with
  | nil => exact absurd rfl h
  | cons l ls ih =>
    cases ls with
    | nil => simp [linesText, joinNl]
    | cons m ms =>
      rw [linesText, ih (List.cons_ne_nil m ms), joinNl_cons _ _ (List.cons_ne_nil m ms)]
      simp

theorem joinNl_getLast_lf (M : List Text) (hM : M ≠ []) (hcl : ∀ l ∈ M, '\n' ∉ l)
    (h : (joinNl M).getLast? = some '\n') : M.getLast? = some ([] : Text) := by
  induction M with
  | nil => exact absurd rfl hM
  | cons l ls ih =>
    cases ls with
    | nil =>
      exact absurd (List.mem_of_getLast?_eq_some h) (hcl l (by simp))
    | cons m ms =>
      rw [joinNl_cons _ _ (by simp), List.getLast?_append] at h
      rcases hX : (joinNl (m :: ms)).getLast? with _ | a
      · have hnil : joinNl (m :: ms) = [] := List.getLast?_eq_none_iff.mp hX
        have hm : m = [] ∧ ms = [] := by
          cases ms with
          | nil => exact ⟨hnil, rfl⟩
          | cons m2 ms2 =>
            rw [joinNl_cons _ _ (by simp)] at hnil
            exact absurd hnil (by simp)
        rw [hm.1, hm.2]
        rfl
      · obtain ⟨ys, hys⟩ := List.getLast?_eq_some_iff.mp hX
        have hcons : ('\n' :: joinNl (m :: ms)).getLast? = some a := by
          refine List.getLast?_eq_some_iff.mpr ⟨'\n' :: ys, ?_⟩
          rw [hys]
          rfl
        rw [hcons] at h
        have hor : (some a).or (l.getLast?) = some a := rfl
        rw [hor] at h
        have ha : a = '\n' := by
          injection h with h
        subst ha
        have hrec := ih (by simp) (fun x hx => hcl x (List.mem_cons_of_mem _ hx)) hX
        rw [List.getLast?_cons_cons]
        exact hrec

theorem findIdx?_append_first {p : Text → Bool} (A : List Text) (x : Text) (Y : List Text)
    (hA : ∀ l ∈ A, p l = false) (hx : p x = true) :
    ∀ i, (A ++ x :: Y).findIdx? p i = some (i + A.length) := by
  induction A with
  | nil =>
    intro i
    simp [List.findIdx?_cons, hx]
  | cons a A' ih =>
    intro i
    rw [List.cons_append, List.findIdx?_cons, hA a (List.mem_cons_self _ _)]
    simp only [Bool.false_eq_true, if_false]
    rw [ih (fun l hl => hA l (List.mem_cons_of_mem _ hl)) (i + 1)]
    congr 1
    simp
    omega

/-- Splitting a line-feed-only text into lines yields clean lines. -/
theorem splitNl_clean_of_onlyLf (tl : Text) (honly : OnlyLfBreaks tl) :
    ∀ l ∈ splitNl tl, CleanLine l := by
  intro l hl c hc
  cases hterm : isLineTerm c with
  | false => rfl
  | true =>
    exfalso
    have hcin : c ∈ tl := mem_splitNl_sub tl l hl c hc
    have hlf := honly c hcin hterm
    rw [hlf] at hc
    exact (mem_splitNl_no_lf tl l hl) hc

/-- Heads of the lines skipped by the insertion loop are whitespace or
a hash. -/
theorem take_insert_head (tl : Text) :
    ∀ l ∈ (splitNl tl).take (insertLineIdx (splitNl tl)),
      ∀ c, l.head? = some c → isJsWs c = true ∨ c = '#' := by
  intro l hl c hc
  rcases blankOrComment_head (insertLineIdx_take (splitNl tl) l hl) with h1 | ⟨c2, t, h2, h3⟩
  · rw [h1] at hc
    exact absurd hc (by simp)
  · rw [h2, List.head?_cons] at hc
    injection hc with hc
    exact hc ▸ h3

/-- A text ending in two newlines ends in one. -/
theorem endsWithNl_of_nlnl {cs : Text} (h : endsWithNlNl cs = true) :
    endsWithNl cs = true := by
  unfold endsWithNlNl at h
  split at h
  next heq =>
    unfold endsWithNl
    have h2 : cs.getLast? = some '\n' := by
      rw [← List.head?_reverse, heq]
      rfl
    rw [h2]
    rfl
  next => exact absurd h (by simp)

/-- Line decomposition of the separator-ensuring step: the output
lines are the span's lines followed by the rest's lines, except that an
already-present trailing blank line fuses with the rest. -/
theorem splitNl_ensure (M : List Text) (rest : Text) (hM : M ≠ [])
    (hnolf : ∀ l ∈ M, '\n' ∉ l) :
    splitNl (ensureTrailingSep (joinNl M) rest ++ rest) = M ++ splitNl rest ∨
    (rest = [] ∧ splitNl (ensureTrailingSep (joinNl M) rest ++ rest) = M) ∨
    (M.getLast? = some ([] : Text) ∧
      splitNl (ensureTrailingSep (joinNl M) rest ++ rest) = M.dropLast ++ splitNl rest) := by
  by_cases hr : rest = []
  · right; left
    refine ⟨hr, ?_⟩
    subst hr
    have hens : ensureTrailingSep (joinNl M) [] = joinNl M := by
      unfold ensureTrailingSep
      simp
    rw [hens, List.append_nil]
    exact splitNl_joinNl_clean M hM hnolf
  · by_cases hend : endsWithNl (joinNl M) = true
    · right; right
      have hlast : (joinNl M).getLast? = some '\n' := by
        unfold endsWithNl at hend
        exact of_decide_eq_true hend
      have hlastM := joinNl_getLast_lf M hM hnolf hlast
      refine ⟨hlastM, ?_⟩
      obtain ⟨M2, hM2⟩ := List.getLast?_eq_some_iff.mp hlastM
      have hens : ensureTrailingSep (joinNl M) rest = joinNl M := by
        unfold ensureTrailingSep
        simp [hend]
      rw [hens]
      have hno2 : ∀ l ∈ M2, '\n' ∉ l := by
        intro l hl
        exact hnolf l (by rw [hM2]; exact List.mem_append_left _ hl)
      have hjoin : joinNl M = linesText M2 := by
        rw [hM2, joinNl_append_linesText M2 [[]] (by simp)]
        simp [joinNl]
      rw [hjoin, splitNl_linesText_append M2 rest hno2]
      congr 1
      rw [hM2, List.dropLast_concat]
    · left
      have hend2 : endsWithNl (joinNl M) = false := by
        cases h2 : endsWithNl (joinNl M) with
        | false => rfl
        | true => exact absurd h2 hend
      have hnlnl : endsWithNlNl (joinNl M) = false := by
        cases h2 : endsWithNlNl (joinNl M) with
        | false => rfl
        | true => exact absurd (endsWithNl_of_nlnl h2) hend
      have h0 : 0 < rest.length := List.length_pos.mpr hr
      have hens : ensureTrailingSep (joinNl M) rest = joinNl M ++ ['\n'] := by
        unfold ensureTrailingSep
        simp [hnlnl, hend2, h0]
      rw [hens]
      have hlt : linesText M = joinNl M ++ ['\n'] := linesText_eq_joinNl M hM
      rw [← hlt]
      exact splitNl_linesText_append M rest hnolf

/-- The top-of-span insertion applied to a field assignment, in line
form. -/
theorem insertAtTopLevelStart_field (tl key v : Text) :
    insertAtTopLevelStart tl (fieldAssignment key v) =
      joinNl ((splitNl tl).take (insertLineIdx (splitNl tl)) ++
        fieldAssignment key v :: (splitNl tl).drop (insertLineIdx (splitNl tl))) := by
  show joinNl ((splitNl tl).take (insertLineIdx (splitNl tl)) ++
      [stripTrailingNl (fieldAssignment key v)] ++
      (splitNl tl).drop (insertLineIdx (splitNl tl))) = _
  rw [stripTrailingNl_fieldAssignment, List.append_assoc, List.singleton_append]

/-- Second phase of the patcher on a freshly inserted version line: the
lastUpdated pattern still has no match, and the anchored insertion puts
the lastUpdated assignment directly after the version assignment. -/
theorem patch_insert_phase (P S : List Text) (v ts : Text)
    (hv : PlainValue v) (hts : PlainValue ts)
    (hPclean : ∀ l ∈ P, CleanLine l)
    (hPv : ∀ l ∈ P, ∀ c, l.head? = some c → c ≠ 'v')
    (hPl : ∀ l ∈ P, ∀ c, l.head? = some c → c ≠ 'l')
    (hlu : findField lastUpdatedKey (joinNl (P ++ S)) = none) :
    findField lastUpdatedKey
        (joinNl (P ++ fieldAssignment versionKey v :: S)) = none ∧
    insertAfterVersionField (joinNl (P ++ fieldAssignment versionKey v :: S))
        (fieldAssignment lastUpdatedKey ts) =
      joinNl (P ++ fieldAssignment versionKey v ::
        fieldAssignment lastUpdatedKey ts :: S) := by
  have hvk : versionKey = 'v' :: ['e', 'r', 's', 'i', 'o', 'n'] := rfl
  have hlk : lastUpdatedKey =
      'l' :: ['a', 's', 't', 'U', 'p', 'd', 'a', 't', 'e', 'd'] := rfl
  have hvlclean : CleanLine (fieldAssignment versionKey v) :=
    cleanLine_fieldAssignment versionKey v (by unfold CleanLine; decide) hv
  have hvlhead : (fieldAssignment versionKey v).head? = some 'v' := by
    rw [hvk]
    exact fieldAssignment_head _ _ _
  have hPcondV : ∀ l ∈ P, CleanLine l ∧ ∀ c, l.head? = some c → c ≠ 'v' :=
    fun l hl => ⟨hPclean l hl, hPv l hl⟩
  have hPcondL : ∀ l ∈ P, CleanLine l ∧ ∀ c, l.head? = some c → c ≠ 'l' :=
    fun l hl => ⟨hPclean l hl, hPl l hl⟩
  have hPvcondL : ∀ l ∈ P ++ [fieldAssignment versionKey v],
      CleanLine l ∧ ∀ c, l.head? = some c → c ≠ 'l' := by
    intro l hl
    rcases List.mem_append.mp hl with h | h
    · exact hPcondL l h
    · rw [List.mem_singleton] at h
      subst h
      refine ⟨hvlclean, ?_⟩
      intro c hc
      rw [hvlhead] at hc
      injection hc with hc
      rw [← hc]
      decide
  have hmV : matchFieldAt lastUpdatedKey (fieldAssignment versionKey v) = none := by
    rw [hlk]
    exact matchFieldAt_none_of_head _ (by rw [hvlhead]; decide)
  have hnone : findField lastUpdatedKey
      (joinNl (P ++ fieldAssignment versionKey v :: S)) = none := by
    cases S with
    | nil =>
      have hth := findFieldAux_through 'l' ['a', 's', 't', 'U', 'p', 'd', 'a', 't', 'e', 'd']
        P [fieldAssignment versionKey v] hPcondL (by decide) (by simp)
      rw [← hlk] at hth
      unfold findField
      rw [hth]
      rw [show joinNl [fieldAssignment versionKey v] = fieldAssignment versionKey v from rfl]
      rw [findFieldAux_single lastUpdatedKey (fieldAssignment versionKey v) hvlclean hmV]
      rfl
    | cons s0 S2 =>
      have hth := findFieldAux_through 'l' ['a', 's', 't', 'U', 'p', 'd', 'a', 't', 'e', 'd']
        (P ++ [fieldAssignment versionKey v]) (s0 :: S2) hPvcondL (by decide) (by simp)
      rw [← hlk] at hth
      unfold findField
      rw [show P ++ fieldAssignment versionKey v :: s0 :: S2 =
        (P ++ [fieldAssignment versionKey v]) ++ s0 :: S2 from by simp]
      rw [hth]
      have hinner : findFieldAux lastUpdatedKey (joinNl (s0 :: S2)) true = none := by
        have h2 := hlu
        unfold findField at h2
        have hth2 := findFieldAux_through 'l'
          ['a', 's', 't', 'U', 'p', 'd', 'a', 't', 'e', 'd']
          P (s0 :: S2) hPcondL (by decide) (by simp)
        rw [← hlk] at hth2
        rw [hth2] at h2
        exact Option.map_eq_none'.mp h2
      rw [hinner]
      rfl
  refine ⟨hnone, ?_⟩
  cases S with
  | nil =>
    have hth := findFieldAux_through 'v' ['e', 'r', 's', 'i', 'o', 'n'] P
      [fieldAssignment versionKey v] hPcondV (by decide) (by simp)
    rw [← hvk] at hth
    have hm := matchFieldAt_fieldAssignment versionKey v [] hv (Or.inl rfl)
    rw [List.append_nil] at hm
    have hfind : findField versionKey (joinNl (P ++ [fieldAssignment versionKey v])) =
        some (linesText P, fieldAssignment versionKey v, []) := by
      unfold findField
      rw [hth]
      rw [show joinNl [fieldAssignment versionKey v] = fieldAssignment versionKey v from rfl]
      rw [findFieldAux_hit versionKey _ _ _ hm]
      simp
    unfold insertAfterVersionField
    rw [hfind]
    simp only []
    rw [stripTrailingNl_fieldAssignment]
    rw [joinNl_append_linesText P _ (by simp)]
    rw [joinNl_cons (fieldAssignment versionKey v) [fieldAssignment lastUpdatedKey ts]
      (by simp)]
    rw [show joinNl [fieldAssignment lastUpdatedKey ts] = fieldAssignment lastUpdatedKey ts
      from rfl]
    simp
  | cons s0 S2 =>
    have hth := findFieldAux_through 'v' ['e', 'r', 's', 'i', 'o', 'n'] P
      (fieldAssignment versionKey v :: s0 :: S2) hPcondV (by decide) (by simp)
    rw [← hvk] at hth
    have hm := matchFieldAt_fieldAssignment versionKey v ('\n' :: joinNl (s0 :: S2)) hv
      (Or.inr ⟨'\n', joinNl (s0 :: S2), rfl, by decide, by decide⟩)
    have hfind : findField versionKey
        (joinNl (P ++ fieldAssignment versionKey v :: s0 :: S2)) =
        some (linesText P, fieldAssignment versionKey v, '\n' :: joinNl (s0 :: S2)) := by
      unfold findField
      rw [hth]
      rw [joinNl_cons (fieldAssignment versionKey v) (s0 :: S2) (by simp)]
      rw [findFieldAux_hit versionKey _ _ _ hm]
      simp
    unfold insertAfterVersionField
    rw [hfind]
    simp only []
    rw [stripTrailingNl_fieldAssignment]
    rw [joinNl_append_linesText P _ (by simp)]
    rw [joinNl_cons (fieldAssignment versionKey v)
      (fieldAssignment lastUpdatedKey ts :: s0 :: S2) (by simp)]
    rw [joinNl_cons (fieldAssignment lastUpdatedKey ts) (s0 :: S2) (by simp)]
    rw [List.append_assoc]

/-- On a clean top-level span containing neither field, the two patch
phases insert the version line and then the lastUpdated line right
after it, at the top of the span past the leading blank/comment run. -/
theorem patch_fresh (tl v ts : Text)
    (honly : OnlyLfBreaks tl)
    (hv : PlainValue v) (hts : PlainValue ts)
    (hver : findField versionKey tl = none)
    (hlu : findField lastUpdatedKey tl = none) :
    patchTopLevelSpan tl v ts =
      joinNl ((splitNl tl).take (insertLineIdx (splitNl tl)) ++
        fieldAssignment versionKey v :: fieldAssignment lastUpdatedKey ts ::
        (splitNl tl).drop (insertLineIdx (splitNl tl))) := by
  have hLsclean := splitNl_clean_of_onlyLf tl honly
  have hPclean : ∀ l ∈ (splitNl tl).take (insertLineIdx (splitNl tl)), CleanLine l :=
    fun l hl => hLsclean l (List.mem_of_mem_take hl)
  have hPhead := take_insert_head tl
  have hPno : ∀ c0, isJsWs c0 = false → c0 ≠ '#' →
      ∀ l ∈ (splitNl tl).take (insertLineIdx (splitNl tl)),
        ∀ c, l.head? = some c → c ≠ c0 := by
    intro c0 hws hh l hl c hc hcc
    subst hcc
    rcases hPhead l hl c hc with h | h
    · rw [hws] at h
      exact absurd h (by decide)
    · exact hh h
  have hlu2 : findField lastUpdatedKey
      (joinNl ((splitNl tl).take (insertLineIdx (splitNl tl)) ++
        (splitNl tl).drop (insertLineIdx (splitNl tl)))) = none := by
    rw [List.take_append_drop, joinNl_splitNl]
    exact hlu
  have hcore := patch_insert_phase
    ((splitNl tl).take (insertLineIdx (splitNl tl)))
    ((splitNl tl).drop (insertLineIdx (splitNl tl))) v ts hv hts hPclean
    (hPno 'v' (by decide) (by decide)) (hPno 'l' (by decide) (by decide)) hlu2
  unfold patchTopLevelSpan
  rw [hver]
  simp only []
  rw [insertAtTopLevelStart_field]
  rw [hcore.1]
  simp only []
  exact hcore.2

/-- Line decomposition of the whole patch run on a fresh clean span:
the skipped blank/comment prefix, then the version line, then the
lastUpdated line, then a tail. -/
theorem update_fresh_lines (tl rest v ts : Text)
    (honly : OnlyLfBreaks tl) (hv : PlainValue v) (hts : PlainValue ts)
    (hver : findField versionKey tl = none)
    (hlu : findField lastUpdatedKey tl = none) :
    ∃ TAIL,
      splitNl (ensureTrailingSep (patchTopLevelSpan tl v ts) rest ++ rest) =
        (splitNl tl).take (insertLineIdx (splitNl tl)) ++
          fieldAssignment versionKey v :: fieldAssignment lastUpdatedKey ts :: TAIL := by
  have hLsclean := splitNl_clean_of_onlyLf tl honly
  have hPclean : ∀ l ∈ (splitNl tl).take (insertLineIdx (splitNl tl)), CleanLine l :=
    fun l hl => hLsclean l (List.mem_of_mem_take hl)
  have hSclean : ∀ l ∈ (splitNl tl).drop (insertLineIdx (splitNl tl)), CleanLine l :=
    fun l hl => hLsclean l (List.mem_of_mem_drop hl)
  rw [patch_fresh tl v ts honly hv hts hver hlu]
  generalize hgP : (splitNl tl).take (insertLineIdx (splitNl tl)) = P at hPclean ⊢
  generalize hgS : (splitNl tl).drop (insertLineIdx (splitNl tl)) = S at hSclean ⊢
  have hvlclean : CleanLine (fieldAssignment versionKey v) :=
    cleanLine_fieldAssignment versionKey v (by unfold CleanLine; decide) hv
  have hllclean : CleanLine (fieldAssignment lastUpdatedKey ts) :=
    cleanLine_fieldAssignment lastUpdatedKey ts (by unfold CleanLine; decide) hts
  have hMne : P ++ fieldAssignment versionKey v ::
      fieldAssignment lastUpdatedKey ts :: S ≠ [] := by
    simp
  have hMnolf : ∀ l ∈ P ++ fieldAssignment versionKey v ::
      fieldAssignment lastUpdatedKey ts :: S, '\n' ∉ l := by
    intro l hl
    rcases List.mem_append.mp hl with h | h
    · exact noLf_of_cleanLine (hPclean l h)
    · rcases List.mem_cons.mp h with rfl | h
      · exact noLf_of_cleanLine hvlclean
      · rcases List.mem_cons.mp h with rfl | h
        · exact noLf_of_cleanLine hllclean
        · exact noLf_of_cleanLine (hSclean l h)
  rcases splitNl_ensure _ rest hMne hMnolf with h1 | ⟨hr0, h2⟩ | ⟨hlast, h3⟩
  · exact ⟨S ++ splitNl rest, by rw [h1]; simp⟩
  · exact ⟨S, h2⟩
  · have hSne : S ≠ [] := by
      intro h0
      rw [h0] at hlast
      rw [show P ++ fieldAssignment versionKey v ::
          fieldAssignment lastUpdatedKey ts :: ([] : List Text) =
          (P ++ [fieldAssignment versionKey v]) ++ [fieldAssignment lastUpdatedKey ts]
        from by simp] at hlast
      rw [List.getLast?_concat] at hlast
      injection hlast with hlast
      have hhd : (fieldAssignment lastUpdatedKey ts).head? = some 'l' := by
        rw [show lastUpdatedKey = 'l' :: ['a', 's', 't', 'U', 'p', 'd', 'a', 't', 'e', 'd']
          from rfl]
        exact fieldAssignment_head _ _ _
      rw [hlast] at hhd
      simp at hhd
    refine ⟨S.dropLast ++ splitNl rest, ?_⟩
    rw [h3]
    have hdl : (P ++ fieldAssignment versionKey v ::
        fieldAssignment lastUpdatedKey ts :: S).dropLast =
        P ++ fieldAssignment versionKey v ::
          fieldAssignment lastUpdatedKey ts :: S.dropLast := by
      rw [show P ++ fieldAssignment versionKey v ::
          fieldAssignment lastUpdatedKey ts :: S =
          (P ++ [fieldAssignment versionKey v, fieldAssignment lastUpdatedKey ts]) ++ S
        from by simp]
      rw [List.dropLast_append_of_ne_nil _ hSne]
      simp
    rw [hdl]
    simp

/-- C3: when `updateTopLevelTomlFields` patches the version and
lastUpdated fields into a document whose top-level span contains
neither pattern, uses only `\n` line breaks, and receives plain quoted
values (no quotes or line terminators), the output contains the version
assignment line strictly before the lastUpdated assignment line, and no
line up to the lastUpdated line starts with `[`, so both precede any
section marker. -/
theorem c3_insertion_order (content v ts : Text)
    (honly : OnlyLfBreaks (splitAtFirstSection content true).1)
    (hv : PlainValue v) (hts : PlainValue ts)
    (hver : findField versionKey (splitAtFirstSection content true).1 = none)
    (hlu : findField lastUpdatedKey (splitAtFirstSection content true).1 = none) :
    ∃ i j,
      (splitNl (updateTopLevelTomlFields content v ts)).findIdx?
          (fun l => l == fieldAssignment versionKey v) = some i ∧
      (splitNl (updateTopLevelTomlFields content v ts)).findIdx?
          (fun l => l == fieldAssignment lastUpdatedKey ts) = some j ∧
      i < j ∧
      ∀ k l, k ≤ j → (splitNl (updateTopLevelTomlFields content v ts))[k]? = some l →
        l.head? ≠ some '[' := by
  have hPhead := take_insert_head (splitAtFirstSection content true).1
  obtain ⟨TAIL, hTAIL⟩ := update_fresh_lines (splitAtFirstSection content true).1
    (splitAtFirstSection content true).2 v ts honly hv hts hver hlu
  have hsplit : splitNl (updateTopLevelTomlFields content v ts) =
      (splitNl (splitAtFirstSection content true).1).take
          (insertLineIdx (splitNl (splitAtFirstSection content true).1)) ++
        fieldAssignment versionKey v :: fieldAssignment lastUpdatedKey ts :: TAIL := by
    rw [show updateTopLevelTomlFields content v ts =
        ensureTrailingSep (patchTopLevelSpan (splitAtFirstSection content true).1 v ts)
          (splitAtFirstSection content true).2 ++ (splitAtFirstSection content true).2
      from rfl]
    exact hTAIL
  rw [hsplit]
  generalize hgP : (splitNl (splitAtFirstSection content true).1).take
      (insertLineIdx (splitNl (splitAtFirstSection content true).1)) = P at hPhead ⊢
  have hvlhead : (fieldAssignment versionKey v).head? = some 'v' := by
    rw [show versionKey = 'v' :: ['e', 'r', 's', 'i', 'o', 'n'] from rfl]
    exact fieldAssignment_head _ _ _
  have hllhead : (fieldAssignment lastUpdatedKey ts).head? = some 'l' := by
    rw [show lastUpdatedKey = 'l' :: ['a', 's', 't', 'U', 'p', 'd', 'a', 't', 'e', 'd']
      from rfl]
    exact fieldAssignment_head _ _ _
  have hPno : ∀ c0, isJsWs c0 = false → c0 ≠ '#' → ∀ l ∈ P, l.head? ≠ some c0 := by
    intro c0 hws hh l hl hc
    rcases hPhead l hl c0 hc with h | h
    · rw [hws] at h
      exact absurd h (by decide)
    · exact hh h
  have hfailV : ∀ l ∈ P, (l == fieldAssignment versionKey v) = false := by
    intro l hl
    cases hb : l == fieldAssignment versionKey v with
    | false => rfl
    | true =>
      exfalso
      have heq : l = fieldAssignment versionKey v := eq_of_beq hb
      exact hPno 'v' (by decide) (by decide) l hl (by rw [heq]; exact hvlhead)
  have hfailL : ∀ l ∈ P ++ [fieldAssignment versionKey v],
      (l == fieldAssignment lastUpdatedKey ts) = false := by
    intro l hl
    rcases List.mem_append.mp hl with h | h
    · cases hb : l == fieldAssignment lastUpdatedKey ts with
      | false => rfl
      | true =>
        exfalso
        have heq : l = fieldAssignment lastUpdatedKey ts := eq_of_beq hb
        exact hPno 'l' (by decide) (by decide) l h (by rw [heq]; exact hllhead)
    · rw [List.mem_singleton] at h
      subst h
      cases hb : fieldAssignment versionKey v == fieldAssignment lastUpdatedKey ts with
      | false => rfl
      | true =>
        exfalso
        have heq : fieldAssignment versionKey v = fieldAssignment lastUpdatedKey ts :=
          eq_of_beq hb
        have h1 := hvlhead
        rw [heq, hllhead] at h1
        injection h1 with h1
        exact absurd h1 (by decide)
  refine ⟨P.length, P.length + 1, ?_, ?_, Nat.lt_succ_self _, ?_⟩
  · have h := findIdx?_append_first P (fieldAssignment versionKey v)
      (fieldAssignment lastUpdatedKey ts :: TAIL) hfailV (by simp) 0
    exact h.trans (by simp)
  · rw [show P ++ fieldAssignment versionKey v ::
        fieldAssignment lastUpdatedKey ts :: TAIL =
        (P ++ [fieldAssignment versionKey v]) ++
          fieldAssignment lastUpdatedKey ts :: TAIL from by simp]
    have h := findIdx?_append_first (P ++ [fieldAssignment versionKey v])
      (fieldAssignment lastUpdatedKey ts) TAIL hfailL (by simp) 0
    exact h.trans (by simp)
  · intro k l2 hk hget
    rcases Nat.lt_or_ge k P.length with hlt | hge
    · rw [List.getElem?_append_left hlt] at hget
      have hmem : l2 ∈ P := List.mem_iff_getElem?.mpr ⟨k, hget⟩
      exact hPno '[' (by decide) (by decide) l2 hmem
    · have hk2 : k = P.length ∨ k = P.length + 1 := by omega
      rcases hk2 with rfl | rfl
      · rw [List.getElem?_append_right (le_refl P.length), Nat.sub_self] at hget
        have h0 : (fieldAssignment versionKey v ::
            fieldAssignment lastUpdatedKey ts :: TAIL)[0]? =
            some (fieldAssignment versionKey v) := rfl
        rw [h0] at hget
        injection hget with hget
        rw [← hget, hvlhead]
        decide
      · rw [List.getElem?_append_right (by omega : P.length ≤ P.length + 1)] at hget
        rw [show P.length + 1 - P.length = 1 from by omega] at hget
        rw [show (1 : Nat) = 0 + 1 from rfl] at hget
        rw [List.getElem?_cons_succ, List.getElem?_cons_zero] at hget
        injection hget with hget
        rw [← hget, hllhead]
        decide

/-- Witness for C3: the hypotheses hold at a concrete input and the
theorem applies. -/
theorem c3_insertion_order_witness :
    OnlyLfBreaks (splitAtFirstSection ([] : Text) true).1 ∧
    PlainValue ['1'] ∧ PlainValue ['2'] ∧
    findField versionKey (splitAtFirstSection ([] : Text) true).1 = none ∧
    findField lastUpdatedKey (splitAtFirstSection ([] : Text) true).1 = none ∧
    (∃ i j,
      (splitNl (updateTopLevelTomlFields [] ['1'] ['2'])).findIdx?
          (fun l => l == fieldAssignment versionKey ['1']) = some i ∧
      (splitNl (updateTopLevelTomlFields [] ['1'] ['2'])).findIdx?
          (fun l => l == fieldAssignment lastUpdatedKey ['2']) = some j ∧
      i < j ∧
      ∀ k l, k ≤ j → (splitNl (updateTopLevelTomlFields [] ['1'] ['2']))[k]? = some l →
        l.head? ≠ some '[') :=
  ⟨by unfold OnlyLfBreaks; decide, by unfold PlainValue; decide,
    by unfold PlainValue; decide, rfl, rfl,
    c3_insertion_order [] ['1'] ['2'] (by unfold OnlyLfBreaks; decide)
      (by unfold PlainValue; decide) (by unfold PlainValue; decide) rfl rfl⟩

/-- C3 counterexample: a double quote inside the version value defeats
the version field pattern, so the second phase cannot anchor on the
freshly inserted version line and falls back to the top-of-span
insertion; on an empty document (which contains neither field) the
lastUpdated line then lands strictly before the version line. -/
theorem c3_counterexample :
    findField versionKey (splitAtFirstSection ([] : Text) true).1 = none ∧
    findField lastUpdatedKey (splitAtFirstSection ([] : Text) true).1 = none ∧
    (splitNl (updateTopLevelTomlFields [] ['a', '"', 'b'] ['2', '0', '2', '4'])).findIdx?
        (fun l => l == fieldAssignment versionKey ['a', '"', 'b']) = some 2 ∧
    (splitNl (updateTopLevelTomlFields [] ['a', '"', 'b'] ['2', '0', '2', '4'])).findIdx?
        (fun l => l == fieldAssignment lastUpdatedKey ['2', '0', '2', '4']) = some 1 :=
  ⟨rfl, rfl, rfl, rfl⟩

end Zcf
